import Mathlib

/-!
# Verification of the lwhlisp interpreter core

Shallow embedding of the lwhlisp interpreter (a small Lisp dialect written in
Rust) and proofs about its value model, environments, parser and evaluator.

Source files embedded:
* `src/atom.rs`     — the `Atom` value model, `PartialEq`, `Debug` printing,
                      `car`/`cdr`, list predicates, closure validation;
* `src/env.rs`      — the `Env` environment (persistent map + parent chain)
                      and the builtin procedures registered by `Env::default`;
* `src/atom/eval.rs`— the recursive evaluator `Atom::old_eval` (special forms,
                      closure application, macro application, `apply`) and the
                      stack-based `Atom::eval`;
* `src/parsing.rs`  — the chumsky lexer and parser.

Modelling conventions:
* Rust `f64` is modelled by `F64` below: an exact rational for finite values
  plus `inf`, `negInf` and `nan`.  Decimal-literal parsing is exact (the
  rounding of a decimal literal to the nearest binary64 value is not
  modelled), except that the IEEE-754 binary64 overflow rule is modelled
  exactly: a literal whose magnitude is at least 2^1024 - 2^970 converts to
  infinity, as Rust's `str::parse::<f64>` does.  Arithmetic on finite values
  is exact where binary64 arithmetic is exact; none of the claims depends on
  rounding of arithmetic.  IEEE comparison semantics (`NaN` compares false,
  infinities ordered) are modelled.
* `Rc<Atom>` sharing is irrelevant to the observable values; atoms are plain
  trees.  `Atom::NativeFunc` holds a Rust function pointer; the embedding
  identifies a builtin by its registration name and dispatches through
  `applyBuiltin`.
* `im_rc::HashMap` is modelled by an association list with unique keys
  (`Bindings`); its `PartialEq` (equal size, and every key bound in one map
  is bound to an equal value in the other) is modelled by `envEq` below.
* Rust `Result<_, color_eyre::Report>` is modelled by `Except String _`;
  error messages are abbreviated (no claim depends on message text).
* The evaluator is given explicit fuel (a `Nat` decremented on every call in
  the mutual block) so that all definitions are structurally recursive and
  kernel-computable; the Rust original recurses on the host stack.
-/

/-- An exact fraction: integer numerator over positive natural denominator,
not necessarily in lowest terms (two fractions denote the same real number
exactly when they cross-multiply equal, which is how every operation below
compares them).  All operations are plain `Int`/`Nat` arithmetic, so the
kernel can evaluate them. -/
structure Frac where
  num : Int
  den : Nat
  deriving DecidableEq, Repr

namespace Frac

/-- The fraction `n / 1`. -/
def ofInt (n : Int) : Frac := ⟨n, 1⟩

/-- Value equality: cross-multiplication. -/
def beq (a b : Frac) : Bool := a.num * (b.den : Int) == b.num * (a.den : Int)

/-- Value order: cross-multiplication (denominators are positive). -/
def blt (a b : Frac) : Bool :=
  decide (a.num * (b.den : Int) < b.num * (a.den : Int))

/-- Value order, non-strict. -/
def ble (a b : Frac) : Bool :=
  decide (a.num * (b.den : Int) ≤ b.num * (a.den : Int))

/-- Exact addition. -/
def add (a b : Frac) : Frac :=
  ⟨a.num * (b.den : Int) + b.num * (a.den : Int), a.den * b.den⟩

/-- Exact subtraction. -/
def sub (a b : Frac) : Frac :=
  ⟨a.num * (b.den : Int) - b.num * (a.den : Int), a.den * b.den⟩

/-- Exact multiplication. -/
def mul (a b : Frac) : Frac := ⟨a.num * b.num, a.den * b.den⟩

/-- Exact division by a nonzero fraction; the sign is moved into the
numerator to keep the denominator positive. -/
def divBy (a b : Frac) : Frac :=
  if b.num < 0 then ⟨-(a.num * (b.den : Int)), a.den * b.num.natAbs⟩
  else ⟨a.num * (b.den : Int), a.den * b.num.natAbs⟩

/-- Is the value zero? -/
def isZero (a : Frac) : Bool := a.num == 0

/-- Is the value strictly negative? -/
def isNegF (a : Frac) : Bool := decide (a.num < 0)

/-- Truncation toward zero, as in Rust `f64::trunc`. -/
def trunc (a : Frac) : Int := a.num.tdiv (a.den : Int)

end Frac

/-- Model of Rust `f64`: an exact fraction for finite values, plus the three
special classes of values that the claims can exercise.  There is a single
zero (IEEE `-0.0 == 0.0`, and the code only ever compares doubles with `==`,
so collapsing the two zeros is observation-preserving). -/
inductive F64 where
  | finite (q : Frac)
  | inf
  | negInf
  | nan
  deriving DecidableEq, Repr

namespace F64

/-- IEEE-754 `==` on doubles, as used by the derived `PartialEq` arm
`(Number(l0), Number(r0)) => l0 == r0` in src/atom.rs: `NaN` is not equal to
anything, infinities are equal to themselves. -/
def beqIEEE : F64 → F64 → Bool
  | finite a, finite b => a.beq b
  | inf, inf => true
  | negInf, negInf => true
  | _, _ => false

/-- IEEE `<`. -/
def ltIEEE : F64 → F64 → Bool
  | finite a, finite b => a.blt b
  | finite _, inf => true
  | negInf, finite _ => true
  | negInf, inf => true
  | _, _ => false

/-- IEEE `<=`. -/
def leIEEE : F64 → F64 → Bool
  | finite a, finite b => a.ble b
  | finite _, inf => true
  | negInf, finite _ => true
  | negInf, inf => true
  | inf, inf => true
  | negInf, negInf => true
  | _, _ => false

/-- IEEE addition (exact on finite values; see the modelling note). -/
def add : F64 → F64 → F64
  | finite a, finite b => finite (a.add b)
  | nan, _ => nan
  | _, nan => nan
  | inf, negInf => nan
  | negInf, inf => nan
  | inf, _ => inf
  | _, inf => inf
  | negInf, _ => negInf
  | _, negInf => negInf

/-- IEEE subtraction. -/
def sub : F64 → F64 → F64
  | finite a, finite b => finite (a.sub b)
  | nan, _ => nan
  | _, nan => nan
  | inf, inf => nan
  | negInf, negInf => nan
  | inf, _ => inf
  | negInf, _ => negInf
  | finite _, inf => negInf
  | finite _, negInf => inf

/-- IEEE multiplication. -/
def mul : F64 → F64 → F64
  | finite a, finite b => finite (a.mul b)
  | nan, _ => nan
  | _, nan => nan
  | inf, inf => inf
  | inf, negInf => negInf
  | negInf, inf => negInf
  | negInf, negInf => inf
  | inf, finite b => if b.isZero then nan else if b.isNegF then negInf else inf
  | finite a, inf => if a.isZero then nan else if a.isNegF then negInf else inf
  | negInf, finite b => if b.isZero then nan else if b.isNegF then inf else negInf
  | finite a, negInf => if a.isZero then nan else if a.isNegF then inf else negInf

/-- IEEE division (exact quotient on finite values; division by zero follows
IEEE: `0/0 = NaN`, `x/0 = ±inf`). -/
def div : F64 → F64 → F64
  | finite a, finite b =>
      if b.isZero then
        if a.isZero then nan else if a.isNegF then negInf else inf
      else finite (a.divBy b)
  | nan, _ => nan
  | _, nan => nan
  | inf, inf => nan
  | inf, negInf => nan
  | negInf, inf => nan
  | negInf, negInf => nan
  | inf, finite b => if b.isNegF then negInf else inf
  | negInf, finite b => if b.isNegF then inf else negInf
  | finite _, inf => finite ⟨0, 1⟩
  | finite _, negInf => finite ⟨0, 1⟩

/-- Rust `%` on `f64` (`fmod`): `a - b * trunc(a / b)`; `x % 0 = NaN`. -/
def fmod : F64 → F64 → F64
  | finite a, finite b =>
      if b.isZero then nan
      else finite (a.sub (b.mul (Frac.ofInt ((a.divBy b).trunc))))
  | finite a, inf => finite a
  | finite a, negInf => finite a
  | _, _ => nan

end F64

mutual
/-- The lwhlisp value type, `enum Atom` from src/atom.rs.
`str` is the `String` variant, `mac` the `Macro` variant, and
`nativeFunc` carries the registration name of the Rust function pointer. -/
inductive Atom where
  | number (n : F64)
  | str (s : String)
  | symbol (s : String)
  | pair (car cdr : Atom)
  | nativeFunc (name : String)
  | closure (env : Env) (args body : Atom)
  | mac (env : Env) (args body : Atom)
  deriving Repr

/-- `struct Env` from src/env.rs: bindings plus an optional parent. -/
inductive Env where
  | mk (bindings : Bindings) (parent : ParentEnv)
  deriving Repr

/-- The binding map `im_rc::HashMap<Rc<String>, Rc<Atom>>`, modelled as an
association list with unique keys. -/
inductive Bindings where
  | nil
  | cons (name : String) (value : Atom) (rest : Bindings)
  deriving Repr

/-- `Option<Box<Env>>`. -/
inductive ParentEnv where
  | none
  | some (env : Env)
  deriving Repr
end

namespace Atom

/-- `Atom::nil()`: the symbol `nil`. -/
def nilA : Atom := .symbol "nil"

/-- `Atom::t()`: the symbol `t`. -/
def tA : Atom := .symbol "t"

/-- `Atom::is_nil`. -/
def isNil : Atom → Bool
  | .symbol s => s == "nil"
  | _ => false

/-- `Atom::car`: the car of a pair, otherwise the atom itself (lenient). -/
def car : Atom → Atom
  | .pair a _ => a
  | a => a

/-- `Atom::cdr`: the cdr of a pair, otherwise the atom itself (lenient). -/
def cdr : Atom → Atom
  | .pair _ b => b
  | a => a

/-- `Atom::is_proper_list`: nil, or a pair whose cdr is a proper list. -/
def isProperList : Atom → Bool
  | .symbol s => s == "nil"
  | .pair _ b => isProperList b
  | _ => false

/-- `Atom::is_list`: true when the atom is a pair. -/
def isPair : Atom → Bool
  | .pair _ _ => true
  | _ => false

/-- `Atom::as_bool`: everything but nil is truthy. -/
def asBool (a : Atom) : Bool := !a.isNil

/-- `Atom::bool`. -/
def ofBool (b : Bool) : Atom := if b then tA else nilA

/-- `Atom::get_number`. -/
def getNumber : Atom → Except String F64
  | .number x => .ok x
  | _ => .error "Expected a number"

/-- `Atom::get_symbol_name`. -/
def getSymbolName : Atom → Except String String
  | .symbol s => .ok s
  | _ => .error "Expected a symbol"

/-- Build a proper list from a Lean list (the parser's `create_list`). -/
def mkList : List Atom → Atom
  | [] => nilA
  | a :: rest => .pair a (mkList rest)

/-- Build a dotted list ending in `last` (the parser's
`create_improper_list`). -/
def mkImproper : List Atom → Atom → Atom
  | [], last => last
  | a :: rest, last => .pair a (mkImproper rest last)

/-- Shorthand for number atoms with integer value. -/
def int (n : Int) : Atom := .number (.finite (Frac.ofInt n))

end Atom

/-- `HashMap::get` on the binding map (keys are unique, so first match). -/
def Bindings.lookup : Bindings → String → Option Atom
  | .nil, _ => Option.none
  | .cons n v rest, name => if n == name then Option.some v else rest.lookup name

/-- `HashMap::insert`: replace an existing binding for the key, or add one.
Uniqueness of keys is preserved. -/
def Bindings.set : Bindings → String → Atom → Bindings
  | .nil, name, v => .cons name v .nil
  | .cons n w rest, name, v =>
      if n == name then .cons n v rest else .cons n w (rest.set name v)

/-- `HashMap::len`. -/
def Bindings.size : Bindings → Nat
  | .nil => 0
  | .cons _ _ rest => rest.size + 1

mutual
/-- `impl PartialEq for Atom` (src/atom.rs lines 35-47).  Note the arms:
Number/Number, Symbol/Symbol, Pair/Pair, Closure/Closure, and a catch-all
`_ => false`.  In particular there is NO String arm and no NativeFunc or
Macro arm: two Strings never compare equal, and neither do two identical
native functions or macros. -/
def atomEq : Atom → Atom → Bool
  | .number l0, .number r0 => F64.beqIEEE l0 r0
  | .symbol l0, .symbol r0 => l0 == r0
  | .pair l0 l1, .pair r0 r1 => atomEq l0 r0 && atomEq l1 r1
  | .closure l0 l1 l2, .closure r0 r1 r2 =>
      envEq l0 r0 && atomEq l1 r1 && atomEq l2 r2
  | _, _ => false
termination_by structural a => a

/-- The derived `PartialEq` on `Env`: bindings equal (`im_rc::HashMap`
equality: equal size and every binding of the first map present in the second
with an equal value) and parents equal. -/
def envEq : Env → Env → Bool
  | .mk b1 p1, .mk b2 p2 =>
      (b1.size == b2.size && bindingsSubsetEq b1 b2) && parentEq p1 p2
termination_by structural a => a

/-- `PartialEq` on `Option<Box<Env>>`. -/
def parentEq : ParentEnv → ParentEnv → Bool
  | .none, .none => true
  | .some e1, .some e2 => envEq e1 e2
  | _, _ => false
termination_by structural a => a

/-- Every binding of `b1` is present in `b2` with an `atomEq`-equal value. -/
def bindingsSubsetEq : Bindings → Bindings → Bool
  | .nil, _ => true
  | .cons n v rest, b2 =>
      (match b2.lookup n with
       | Option.some v' => atomEq v v'
       | Option.none => false) && bindingsSubsetEq rest b2
termination_by structural a => a
end

namespace Env

/-- `Env::new(parent)`. -/
def new (parent : ParentEnv) : Env := .mk .nil parent

/-- `Env::get`: nearest frame that binds the name, else an error. -/
def get : Env → String → Except String Atom
  | .mk b p, name =>
    match b.lookup name with
    | Option.some a => .ok a
    | Option.none =>
      match p with
      | .some parent => parent.get name
      | .none => .error ("Symbol " ++ name ++ " is not bound to any value.")

/-- `Env::set`: insert or replace in this frame only. -/
def set : Env → String → Atom → Env
  | .mk b p, name, v => .mk (b.set name v) p

/-- `Env::add_furthest_parent`: walk the parent chain to its end and attach
`parent` there. -/
def addFurthestParent : Env → Env → Env
  | .mk b .none, parent => .mk b (.some parent)
  | .mk b (.some p), parent => .mk b (.some (p.addFurthestParent parent))

end Env

/-! ## Decimal digit strings

Kernel-computable base-10 digits (little-endian), with a bridge lemma to
`Nat.digits` so that Mathlib's `Nat.ofDigits` lemmas apply. -/

/-- Little-endian base-10 digits, with explicit fuel (structural, so the
kernel can evaluate it). -/
def digitsGo : Nat → Nat → List Nat
  | 0, _ => []
  | fuel + 1, n => if n = 0 then [] else n % 10 :: digitsGo fuel (n / 10)

/-- Little-endian base-10 digits of `n`. -/
def natDigits (n : Nat) : List Nat := digitsGo n n

theorem digitsGo_eq_digits : ∀ fuel n, n ≤ fuel → digitsGo fuel n = Nat.digits 10 n := by
  intro fuel
  induction fuel with
  | zero => intro n hn; simp [Nat.le_zero.mp hn, digitsGo]
  | succ f ih =>
    intro n hn
    match n with
    | 0 => simp [digitsGo]
    | m + 1 =>
      rw [digitsGo, if_neg (Nat.succ_ne_zero m),
        Nat.digits_def' (by norm_num : 1 < 10) (Nat.succ_pos m)]
      congr 1
      exact ih _ (Nat.le_of_lt_succ
        (Nat.lt_of_lt_of_le (Nat.div_lt_self (Nat.succ_pos m) (by norm_num)) hn))

theorem natDigits_eq (n : Nat) : natDigits n = Nat.digits 10 n :=
  digitsGo_eq_digits n n le_rfl

/-- A base-10 digit as a character. -/
def digitChar (d : Nat) : Char := Char.ofNat (48 + d)

/-- Decimal rendering of a natural number (as Rust's integer formatting). -/
def natToDigitString (n : Nat) : String :=
  if n = 0 then "0" else String.mk ((natDigits n).reverse.map digitChar)

/-- Exactly `k` base-10 digit characters for `v < 10^k` (zero-padded on the
left); used for the fractional part of a decimal rendering. -/
def padDigits (v k : Nat) : String :=
  String.mk (((natDigits v) ++ List.replicate (k - (natDigits v).length) 0).reverse.map digitChar)

/-- Strip trailing decimal zeros: while the digit count `k` is positive and
`m` ends in 0, drop that zero. -/
def stripZeros : Nat → Nat → Nat × Nat
  | m, 0 => (m, 0)
  | m, k + 1 => if m % 10 == 0 then stripZeros (m / 10) k else (m, k + 1)

namespace F64

/-- Decimal rendering of a finite double, modelling Rust's `Display` for
`f64` (shortest decimal form, never exponent notation).  The value is written
as `± digits [. digits]` with no trailing fractional zeros.  `q.den` divides
`10 ^ q.den` for every value that can arise from a decimal literal (its
reduced denominator is of the form `2^a * 5^b`), which makes the scaling
below exact; for other rationals (which cannot reach the printer in any of
the verified scenarios) the rendering is a truncation. -/
def displayFinite (q : Frac) : String :=
  let d := q.den
  let mk := stripZeros (q.num.natAbs * 10 ^ d / d) d
  String.mk ((if q.isNegF then ['-'] else []) ++
    (natToDigitString (mk.1 / 10 ^ mk.2)).data ++
    (if mk.2 == 0 then [] else '.' :: (padDigits (mk.1 % 10 ^ mk.2) mk.2).data))

/-- Rust `Display` for `f64` (`write!(f, "{}", i)` in the `Debug` impl of
`Atom`): finite values in decimal, `inf`, `-inf` and `NaN` as Rust prints
them. -/
def display : F64 → String
  | finite q => displayFinite q
  | inf => "inf"
  | negInf => "-inf"
  | nan => "NaN"

end F64

namespace Atom

/-- The formals check inside `Atom::validate_closure_form`: walk the formals;
a bare symbol ends the walk (variadic tail), every pair must carry a symbol
in its car, anything else is an error. -/
def checkFormals : Atom → Except String Unit
  | .symbol s =>
      -- the loop condition `!p.is_nil()` stops on nil; any other symbol hits
      -- the `Atom::Symbol(_) => break` arm
      if s == "nil" then .ok () else .ok ()
  | .pair c rest =>
      match c with
      | .symbol _ => checkFormals rest
      | _ => .error "Expected all argument names to be symbols"
  | _ => .error "Expected all argument names to be symbols"

/-- `Atom::validate_closure_form`: body must be a proper list and all
non-tail formals must be symbols. -/
def validateClosureForm (env : Env) (args body : Atom) :
    Except String (Env × Atom × Atom) :=
  if isProperList body then do
    checkFormals args
    .ok (env, args, body)
  else .error "Expected body to be a proper list"

/-- `Atom::closure`. -/
def closureOf (env : Env) (args body : Atom) : Except String Atom := do
  let (env, args, body) ← validateClosureForm env args body
  .ok (.closure env args body)

/-- `Atom::closure_add_env_binding`: add a binding to a closure's captured
environment. -/
def closureAddEnvBinding (a : Atom) (name : String) (value : Atom) :
    Except String Atom :=
  match a with
  | .closure env x b => .ok (.closure (env.set name value) x b)
  | _ => .error "Tried to change the environment of a closure, but the provided atom was not a closure"

mutual
/-- `impl Debug for Atom` (src/atom.rs lines 74-99): the canonical,
round-trippable rendering. -/
def printDebug : Atom → String
  | .number i => i.display
  | .symbol s => s
  | .pair a b => "(" ++ printDebug a ++ printRest b ++ ")"
  | .nativeFunc _ => "#<BUILTIN>"
  | .closure _ args expr => "(lambda " ++ printDebug args ++ " " ++ fmtPairDebug expr ++ ")"
  | .mac _ args expr => "(defmacro " ++ printDebug args ++ " " ++ fmtPairDebug expr ++ ")"
  | .str s => "\"" ++ s ++ "\""
termination_by structural a => a

/-- The `while` loop in `Atom::fmt_pair_debug`: remaining elements of a
(possibly improper) list, each preceded by a space; a non-nil dotted tail is
preceded by a dot.  The tail's own rendering (`" . {:?}"` in the source) is
inlined per constructor here so that the recursion stays structural; each arm
is the corresponding `printDebug` arm verbatim. -/
def printRest : Atom → String
  | .pair a b => " " ++ printDebug a ++ printRest b
  | .symbol s => if s == "nil" then "" else " . " ++ s
  | .number i => " . " ++ i.display
  | .nativeFunc _ => " . #<BUILTIN>"
  | .str s => " . \"" ++ s ++ "\""
  | .closure _ args expr => " . (lambda " ++ printDebug args ++ " " ++ fmtPairDebug expr ++ ")"
  | .mac _ args expr => " . (defmacro " ++ printDebug args ++ " " ++ fmtPairDebug expr ++ ")"
termination_by structural a => a

/-- `Atom::fmt_pair_debug`: the body of a pair rendering without the
surrounding parentheses.  On a non-pair it returns `fmt::Error` in Rust; that
case is unreachable from `Debug` (closure and macro bodies are validated to
be proper non-empty lists). -/
def fmtPairDebug : Atom → String
  | .pair a b => printDebug a ++ printRest b
  | _ => "<fmt error>"
termination_by structural a => a
end

/-- `Atom::get_list_lenght_including_inner_without_symbol`. -/
def glliws : Atom → Nat
  | .pair a b => glliws a + glliws b
  | _ => 1

/-- `Atom::get_list_lenght_including_inner` — the "rendered structural
weight" used by the pretty printer.  Symbol names are ASCII here, so Rust's
byte length coincides with `String.length`. -/
def glli : Atom → Nat
  | .pair a b => glliws a + glliws b
  | .symbol s => s.length
  | _ => 1

/-- Node count, used only to allot fuel to the pretty printer. -/
def size : Atom → Nat
  | .pair a b => size a + size b + 1
  | .closure _ a b => size a + size b + 1
  | .mac _ a b => size a + size b + 1
  | _ => 1

mutual
/-- `Atom::pretty_print` (src/atom.rs lines 108-185), the `Display`
rendering.  Fueled (the Rust original recurses on the host stack; the macro
arm recurses on a freshly built, larger atom, so the recursion is not
structural).  Sufficient fuel is supplied at every call site; none of the
claims depends on this rendering. -/
def prettyPrint : Nat → Atom → Nat → String
  | 0, _, _ => ""
  | fuel + 1, a, indent =>
    match a with
    | .pair car cdr =>
      if glli (.pair car cdr) ≤ 12 then
        "(" ++ prettyPrint fuel car 0 ++ prettyOneLineRest fuel cdr ++ ")"
      else
        let pofl :=
          match car with
          | .symbol s => s == "if" || s == "define" || s == "defmacro" || s == "lambda"
          | _ => false
        "(" ++ prettyPrint fuel car (indent + 1) ++
          prettyMultiRest fuel cdr indent pofl true ++ ")"
    | .mac _ args expr =>
      prettyPrint fuel (.pair (.symbol "defmacro") (.pair args expr)) indent
    | a => printDebug a

/-- The element loop of the one-line case (`write!(s, " {}", car)` uses
`Display`, i.e. `pretty_print(0)`). -/
def prettyOneLineRest : Nat → Atom → String
  | 0, _ => ""
  | fuel + 1, atom =>
    if atom.isNil then ""
    else
      match atom with
      | .pair car cdr => " " ++ prettyPrint fuel car 0 ++ prettyOneLineRest fuel cdr
      | a => " . " ++ prettyPrint fuel a 0

/-- The element loop of the multi-line case: three spaces of indentation per
depth level; for the heads `if`/`define`/`defmacro`/`lambda` the first
operand stays on the head's line. -/
def prettyMultiRest : Nat → Atom → Nat → Bool → Bool → String
  | 0, _, _, _, _ => ""
  | fuel + 1, atom, indent, pofl, firstArg =>
    if atom.isNil then ""
    else
      match atom with
      | .pair car cdr =>
        let elem := prettyPrint fuel car (indent + 1)
        (if pofl && firstArg then " " ++ elem
         else "\n" ++ String.join (List.replicate (indent + 1) "   ") ++ elem) ++
          prettyMultiRest fuel cdr indent pofl false
      | a => " . " ++ prettyPrint fuel a 0
end

/-- `Display` for `Atom`: `pretty_print(0)` with ample fuel. -/
def display (a : Atom) : String := prettyPrint (4 * size a + 16) a 0

end Atom

/-- `format_for_print` (src/env.rs): a `String` atom prints raw, everything
else through `Display`. -/
def formatForPrint : Atom → String
  | .str s => s
  | a => a.display

/-- The list of bindings installed by `Env::default` (src/env.rs lines
17-349), in registration order: `nil`, `t`, the six special-form keywords
bound to themselves, then the builtins. -/
def defaultBindingList : List (String × Atom) :=
  [("nil", Atom.nilA), ("t", Atom.tA),
   ("define", .symbol "define"), ("defmacro", .symbol "defmacro"),
   ("lambda", .symbol "lambda"), ("if", .symbol "if"),
   ("quote", .symbol "quote"), ("apply", .symbol "apply"),
   ("into-pretty-string", .nativeFunc "into-pretty-string"),
   ("into-string", .nativeFunc "into-string"),
   ("print", .nativeFunc "print"), ("println", .nativeFunc "println"),
   ("pair?", .nativeFunc "pair?"), ("symbol?", .nativeFunc "symbol?"),
   ("string?", .nativeFunc "string?"),
   ("string-length", .nativeFunc "string-length"),
   ("car", .nativeFunc "car"), ("cdr", .nativeFunc "cdr"),
   ("cons", .nativeFunc "cons"),
   ("+", .nativeFunc "+"), ("-", .nativeFunc "-"), ("*", .nativeFunc "*"),
   ("/", .nativeFunc "/"), ("%", .nativeFunc "%"), ("=", .nativeFunc "="),
   ("<", .nativeFunc "<"), ("<=", .nativeFunc "<="),
   (">", .nativeFunc ">"), (">=", .nativeFunc ">=")]

/-- The root frame built by `Env::default` before it is wrapped. -/
def rootEnv : Env :=
  defaultBindingList.foldl (fun e nv => e.set nv.1 nv.2) (Env.mk .nil .none)

/-- `Env::default`: a fresh empty frame whose parent is the root frame. -/
def Env.default : Env := Env.new (.some rootEnv)

/-- The builtin procedures of src/env.rs, dispatched by registration name.
Each receives the already-evaluated argument list and checks arity exactly as
the source closures do.  `print`/`println` write to stdout in Rust; the side
effect is dropped here and only the returned `String` atom (what was
emitted) is modelled. -/
def applyBuiltin : String → Atom → Except String Atom
  | "into-pretty-string", args =>
    if args.isNil || !(args.cdr).isNil then
      .error "Builtin into-pretty-string expected exactly one argument"
    else .ok (.str (args.car).display)
  | "into-string", args =>
    if args.isNil || !(args.cdr).isNil then
      .error "Builtin into-string expected exactly one argument"
    else .ok (.str (Atom.printDebug args.car))
  | "print", args =>
    if args.isNil || !(args.cdr).isNil then
      .error "Builtin print expected exactly one argument"
    else .ok (.str (formatForPrint args.car))
  | "println", args =>
    if args.isNil || !(args.cdr).isNil then
      .error "Builtin println expected exactly one argument"
    else .ok (.str (formatForPrint args.car))
  | "pair?", args =>
    if args.isNil || !(args.cdr).isNil then
      .error "Builtin pair? expected exactly one argument"
    else if (args.car).isPair then .ok Atom.tA else .ok Atom.nilA
  | "symbol?", args =>
    if args.isNil || !(args.cdr).isNil then
      .error "Builtin symbol? expected exactly one argument"
    else
      match args.car with
      | .symbol _ => .ok Atom.tA
      | _ => .ok Atom.nilA
  | "string?", args =>
    if args.isNil || !(args.cdr).isNil then
      .error "Builtin string? expected exactly one argument"
    else
      match args.car with
      | .str _ => .ok Atom.tA
      | _ => .ok Atom.nilA
  | "string-length", args =>
    if args.isNil || !(args.cdr).isNil then
      .error "Builtin string-length expected exactly one argument"
    else
      match args.car with
      | .str s => .ok (Atom.int s.length)
      | _ => .error "Builtin string-length expected its argument to be a string"
  | "car", args =>
    if args.isNil || !(args.cdr).isNil then
      .error "Builtin car expected exactly one argument"
    else .ok ((args.car).car)
  | "cdr", args =>
    if args.isNil || !(args.cdr).isNil then
      .error "Builtin cdr expected exactly one argument"
    else .ok ((args.car).cdr)
  | "cons", args =>
    if args.isNil || (args.cdr).isNil || !((args.cdr).cdr).isNil then
      .error "Builtin cons expected exactly two arguments"
    else .ok (.pair args.car ((args.cdr).car))
  | "+", args =>
    if args.isNil || (args.cdr).isNil || !((args.cdr).cdr).isNil then
      .error "Builtin + expected exactly two arguments"
    else do
      let a ← (args.car).getNumber
      let b ← ((args.cdr).car).getNumber
      .ok (.number (a.add b))
  | "-", args =>
    if args.isNil || (args.cdr).isNil || !((args.cdr).cdr).isNil then
      .error "Builtin - expected exactly two arguments"
    else do
      let a ← (args.car).getNumber
      let b ← ((args.cdr).car).getNumber
      .ok (.number (a.sub b))
  | "*", args =>
    if args.isNil || (args.cdr).isNil || !((args.cdr).cdr).isNil then
      .error "Builtin * expected exactly two arguments"
    else do
      let a ← (args.car).getNumber
      let b ← ((args.cdr).car).getNumber
      .ok (.number (a.mul b))
  | "/", args =>
    if args.isNil || (args.cdr).isNil || !((args.cdr).cdr).isNil then
      .error "Builtin / expected exactly two arguments"
    else do
      let a ← (args.car).getNumber
      let b ← ((args.cdr).car).getNumber
      .ok (.number (a.div b))
  | "%", args =>
    if args.isNil || (args.cdr).isNil || !((args.cdr).cdr).isNil then
      .error "Builtin % expected exactly two arguments"
    else do
      let a ← (args.car).getNumber
      let b ← ((args.cdr).car).getNumber
      .ok (.number (a.fmod b))
  | "=", args =>
    if args.isNil || (args.cdr).isNil || !((args.cdr).cdr).isNil then
      .error "Builtin = expected exactly two arguments"
    else .ok (Atom.ofBool (atomEq args.car ((args.cdr).car)))
  | "<", args =>
    if args.isNil || (args.cdr).isNil || !((args.cdr).cdr).isNil then
      .error "Builtin < expected exactly two arguments"
    else do
      let a ← (args.car).getNumber
      let b ← ((args.cdr).car).getNumber
      .ok (Atom.ofBool (a.ltIEEE b))
  | "<=", args =>
    if args.isNil || (args.cdr).isNil || !((args.cdr).cdr).isNil then
      .error "Builtin <= expected exactly two arguments"
    else do
      let a ← (args.car).getNumber
      let b ← ((args.cdr).car).getNumber
      .ok (Atom.ofBool (a.leIEEE b))
  | ">", args =>
    if args.isNil || (args.cdr).isNil || !((args.cdr).cdr).isNil then
      .error "Builtin > expected exactly two arguments"
    else do
      let a ← (args.car).getNumber
      let b ← ((args.cdr).car).getNumber
      .ok (Atom.ofBool (b.ltIEEE a))
  | ">=", args =>
    if args.isNil || (args.cdr).isNil || !((args.cdr).cdr).isNil then
      .error "Builtin >= expected exactly two arguments"
    else do
      let a ← (args.car).getNumber
      let b ← ((args.cdr).car).getNumber
      .ok (Atom.ofBool (b.leIEEE a))
  | _, _ => .error "unknown builtin"

/-! ## The recursive evaluator `Atom::old_eval` (src/atom/eval.rs)

All functions of the mutual block take explicit fuel as their first `Nat`
argument and decrement it on every call, so the block is structurally
recursive on the fuel and fully kernel-computable.  The environment is
threaded explicitly (`&mut Env` in Rust): every evaluation returns the
result together with the possibly-mutated caller environment.

`MacroRule` selects the macro-application semantics: `.code` is the source
behaviour of `old_eval_macro` (each body expression is evaluated and its
result immediately re-evaluated, both in the macro's fresh application
environment); `.spec` is the behaviour described by the specification
(Modelled from the spec, §4.6: the body is evaluated once in the fresh
environment, and the resulting expansion is then evaluated once in the
macro's call environment, i.e. the caller's environment).  Everything except
macro application is identical under both rules; `.spec` exists only to be
compared against `.code` for claim C3. -/

/-- Selects the macro-application semantics (see the section comment). -/
inductive MacroRule where
  | code
  | spec
  deriving DecidableEq, Repr

mutual
/-- `Atom::old_eval`: dispatch on the variant of the expression. -/
def oldEval (mr : MacroRule) : Nat → Atom → Env → Except String (Atom × Env)
  | 0, _, _ => .error "out of fuel"
  | fuel + 1, expr, env =>
    match expr with
    | .number _ | .nativeFunc _ | .closure _ _ _ | .str _ => .ok (expr, env)
    | .symbol s => do
      let a ← env.get s
      .ok (a, env)
    | .mac _ _ _ => .error "Attempt to old_evaluate macro"
    | .pair car cdr => listOldEvaluation mr fuel car cdr (.pair car cdr) env
termination_by structural fuel => fuel

/-- `list_old_evaluation`: a combination must be a proper list; evaluate the
operator, then dispatch on its variant. -/
def listOldEvaluation (mr : MacroRule) :
    Nat → Atom → Atom → Atom → Env → Except String (Atom × Env)
  | 0, _, _, _, _ => .error "out of fuel"
  | fuel + 1, car, cdr, expr, env =>
    if !Atom.isProperList expr then
      .error "Attempted to old_evaluate improper list"
    else do
      let (op, env1) ← oldEval mr fuel car env
      let args := cdr
      match op with
      | .symbol s => tryOldEvaluateSpecialForm mr fuel s args env1
      | .nativeFunc f => do
        let (evaledArgs, env2) ← oldEvalElementsInList mr fuel args env1
        let r ← applyBuiltin f evaledArgs
        .ok (r, env2)
      | .closure functionEnv originalArgNames body =>
        oldEvalClosure mr fuel functionEnv env1 originalArgNames args body
      | .mac functionEnv originalArgNames body =>
        oldEvalMacro mr fuel functionEnv env1 originalArgNames args body
      | _ => .error "Expected a function as first element of old_evaluated list"
termination_by structural fuel => fuel

/-- `old_eval_elements_in_list` (also the local `old_eval_args` inside
`old_eval_closure`, which is the same code): evaluate every element of a
list left-to-right. -/
def oldEvalElementsInList (mr : MacroRule) :
    Nat → Atom → Env → Except String (Atom × Env)
  | 0, _, _ => .error "out of fuel"
  | fuel + 1, x, env => do
    let (v, env1) ← oldEval mr fuel x.car env
    if (x.cdr).isNil then .ok (.pair v x.cdr, env1)
    else do
      let (rest, env2) ← oldEvalElementsInList mr fuel x.cdr env1
      .ok (.pair v rest, env2)
termination_by structural fuel => fuel

/-- `old_eval_closure`: fresh environment over the captured environment with
the caller's environment appended at the far end; bind formals to evaluated
operands; then evaluate the body in sequence. -/
def oldEvalClosure (mr : MacroRule) :
    Nat → Env → Env → Atom → Atom → Atom → Except String (Atom × Env)
  | 0, _, _, _, _, _ => .error "out of fuel"
  | fuel + 1, functionEnv, env, originalArgNames, args, body => do
    let funcEnv := Env.addFurthestParent (Env.new (.some functionEnv)) env
    let (argsWorking, env1, funcEnv1) ←
      closureBindLoop mr fuel originalArgNames args env funcEnv
    if !argsWorking.isNil then .error "Too many arguments"
    else do
      let (result, _) ← closureBodyLoop mr fuel body Atom.nilA funcEnv1
      .ok (result, env1)
termination_by structural fuel => fuel

/-- The formal-binding `while` loop of `old_eval_closure`.  Note the order of
the checks: the too-few-arguments test fires at the top of each iteration,
before the bare-symbol (variadic tail) case is examined.  Returns the final
`args_working` together with the caller environment and the new frame. -/
def closureBindLoop (mr : MacroRule) :
    Nat → Atom → Atom → Env → Env → Except String (Atom × Env × Env)
  | 0, _, _, _, _ => .error "out of fuel"
  | fuel + 1, argNames, argsWorking, env, funcEnv =>
    if argNames.isNil then .ok (argsWorking, env, funcEnv)
    else if argsWorking.isNil then .error "Too few arguments"
    else
      match argNames with
      | .symbol sym => do
        -- final argument for variadic functions: evaluate all remaining
        -- operands and bind the list
        let (evaledArgs, env1) ← oldEvalElementsInList mr fuel argsWorking env
        .ok (Atom.nilA, env1, funcEnv.set sym evaledArgs)
      | _ => do
        let arg := argsWorking.car
        let (evaledArg, env1) ← oldEval mr fuel arg env
        let name ← (argNames.car).getSymbolName
        closureBindLoop mr fuel argNames.cdr argsWorking.cdr env1
          (funcEnv.set name evaledArg)
termination_by structural fuel => fuel

/-- The body `while` loop of `old_eval_closure`: evaluate each body
expression in the function environment; the result starts as nil. -/
def closureBodyLoop (mr : MacroRule) :
    Nat → Atom → Atom → Env → Except String (Atom × Env)
  | 0, _, _, _ => .error "out of fuel"
  | fuel + 1, bodyWorking, result, funcEnv =>
    if bodyWorking.isNil then .ok (result, funcEnv)
    else do
      let (r, funcEnv1) ← oldEval mr fuel bodyWorking.car funcEnv
      closureBodyLoop mr fuel bodyWorking.cdr r funcEnv1
termination_by structural fuel => fuel

/-- `old_eval_macro`: like closure application but operands are bound
unevaluated; under `.code`, each body expression's result is immediately
re-evaluated in the same function environment (the source behaviour); under
`.spec`, the body is evaluated once and the expansion is then evaluated in
the caller's environment (Modelled from the spec, §4.6).  The caller
environment is returned unchanged under `.code` (operands are never
evaluated in it and the body runs in the function environment). -/
def oldEvalMacro (mr : MacroRule) :
    Nat → Env → Env → Atom → Atom → Atom → Except String (Atom × Env)
  | 0, _, _, _, _, _ => .error "out of fuel"
  | fuel + 1, functionEnv, env, originalArgNames, args, body => do
    let funcEnv := Env.addFurthestParent (Env.new (.some functionEnv)) env
    let (argsWorking, funcEnv1) ← macroBindLoop fuel originalArgNames args funcEnv
    if !argsWorking.isNil then .error "Too many arguments"
    else
      match mr with
      | .code => do
        let (result, _) ← macroBodyLoop mr fuel body Atom.nilA funcEnv1
        .ok (result, env)
      | .spec => do
        let (expansion, _) ← closureBodyLoop mr fuel body Atom.nilA funcEnv1
        oldEval mr fuel expansion env
termination_by structural fuel => fuel

/-- The formal-binding loop of `old_eval_macro`: identical to the closure
one except that operands are bound as received, unevaluated. -/
def macroBindLoop :
    Nat → Atom → Atom → Env → Except String (Atom × Env)
  | 0, _, _, _ => .error "out of fuel"
  | fuel + 1, argNames, argsWorking, funcEnv =>
    if argNames.isNil then .ok (argsWorking, funcEnv)
    else if argsWorking.isNil then .error "Too few arguments"
    else
      match argNames with
      | .symbol sym => .ok (Atom.nilA, funcEnv.set sym argsWorking)
      | _ => do
        let arg := argsWorking.car
        let name ← (argNames.car).getSymbolName
        macroBindLoop fuel argNames.cdr argsWorking.cdr (funcEnv.set name arg)
termination_by structural fuel => fuel

/-- The body loop of `old_eval_macro` under the source semantics: each body
expression is evaluated and its result immediately evaluated again, both in
the function environment. -/
def macroBodyLoop (mr : MacroRule) :
    Nat → Atom → Atom → Env → Except String (Atom × Env)
  | 0, _, _, _ => .error "out of fuel"
  | fuel + 1, bodyWorking, result, funcEnv =>
    if bodyWorking.isNil then .ok (result, funcEnv)
    else do
      let (r1, funcEnv1) ← oldEval mr fuel bodyWorking.car funcEnv
      let (r2, funcEnv2) ← oldEval mr fuel r1 funcEnv1
      macroBodyLoop mr fuel bodyWorking.cdr r2 funcEnv2
termination_by structural fuel => fuel

/-- `try_old_evaluate_special_form`: dispatch on the operator symbol's name;
a symbol that is not one of the six keywords is an error. -/
def tryOldEvaluateSpecialForm (mr : MacroRule) :
    Nat → String → Atom → Env → Except String (Atom × Env)
  | 0, _, _, _ => .error "out of fuel"
  | fuel + 1, s, args, env =>
    match s with
    | "quote" => oldEvalSpecialFormQuote fuel args env
    | "define" => oldEvalSpecialFormDefine mr fuel args env
    | "defmacro" => oldEvalSpecialFormDefmacro fuel args env
    | "lambda" => oldEvalSpecialFormLambda fuel args env
    | "if" => oldEvalSpecialFormIf mr fuel args env
    | "apply" => oldEvalSpecialFormApply mr fuel args env
    | _ => .error "Expected function, builtin function or special form, but got a symbol"
termination_by structural fuel => fuel

/-- `old_eval_special_form_quote`: exactly one operand, returned unchanged. -/
def oldEvalSpecialFormQuote :
    Nat → Atom → Env → Except String (Atom × Env)
  | 0, _, _ => .error "out of fuel"
  | _ + 1, args, env =>
    if args.isNil || !(args.cdr).isNil then
      .error "QUOTE takes exactly one argument"
    else .ok (args.car, env)

/-- `old_eval_special_form_define`: `(define name value)` evaluates the value
and binds it; `(define (name . formals) body…)` builds a closure, adds the
self-binding `name → closure` to the closure's captured environment, and
binds the result. -/
def oldEvalSpecialFormDefine (mr : MacroRule) :
    Nat → Atom → Env → Except String (Atom × Env)
  | 0, _, _ => .error "out of fuel"
  | fuel + 1, args, env =>
    if args.isNil || (args.cdr).isNil then
      .error "DEFINE has either the form (DEFINE name value) or (DEFINE (name arg ...) body ...)"
    else
      let sym := args.car
      match sym with
      | .pair c rest => do
        let result ← Atom.closureOf env rest (args.cdr)
        match c with
        | .symbol symbol => do
          let result2 ← Atom.closureAddEnvBinding result symbol result
          .ok (c, env.set symbol result2)
        | _ => .error "Found define form (DEFINE (name arg ...) body ...), but name was not a symbol"
      | .symbol symbol => do
        let (value, env1) ← oldEval mr fuel ((args.cdr).car) env
        .ok (sym, env1.set symbol value)
      | _ => .error "Expected a symbol as first argument to define"
termination_by structural fuel => fuel

/-- `old_eval_special_form_defmacro`: validate like `lambda`, bind a `Macro`
value, return the name. -/
def oldEvalSpecialFormDefmacro :
    Nat → Atom → Env → Except String (Atom × Env)
  | 0, _, _ => .error "out of fuel"
  | _ + 1, args, env =>
    if args.isNil || (args.cdr).isNil || !args.isPair then
      .error "DEFMACRO has the form (DEFMACRO (name arg ...) body ...)"
    else
      let name := (args.car).car
      match name with
      | .symbol sym => do
        let (macroEnv, margs, mbody) ←
          Atom.validateClosureForm env ((args.car).cdr) (args.cdr)
        .ok (name, env.set sym (.mac macroEnv margs mbody))
      | _ => .error "Expected name to be a symbol"

/-- `old_eval_special_form_lambda`: at least formals and one body
expression; capture the current environment. -/
def oldEvalSpecialFormLambda :
    Nat → Atom → Env → Except String (Atom × Env)
  | 0, _, _ => .error "out of fuel"
  | _ + 1, args, env =>
    if args.isNil || (args.cdr).isNil then
      .error "LAMBDA has the form (lambda (arg ...) (body) ...)"
    else do
      let c ← Atom.closureOf env args.car (args.cdr)
      .ok (c, env)

/-- `old_eval_special_form_if`: exactly three operands; evaluate the test,
then the chosen branch. -/
def oldEvalSpecialFormIf (mr : MacroRule) :
    Nat → Atom → Env → Except String (Atom × Env)
  | 0, _, _ => .error "out of fuel"
  | fuel + 1, args, env =>
    if args.isNil || (args.cdr).isNil || ((args.cdr).cdr).isNil ||
        !(((args.cdr).cdr).cdr).isNil then
      .error "Special form if takes exactly 3 arguments"
    else do
      let (r, env1) ← oldEval mr fuel args.car env
      if r.asBool then oldEval mr fuel ((args.cdr).car) env1
      else oldEval mr fuel (((args.cdr).cdr).car) env1
termination_by structural fuel => fuel

/-- `old_eval_special_form_apply`: exactly two operands; evaluate both,
require the second to evaluate to a proper list, then evaluate a new
combination whose head is the evaluated function and whose tail wraps each
list element in a `(quote …)` form. -/
def oldEvalSpecialFormApply (mr : MacroRule) :
    Nat → Atom → Env → Except String (Atom × Env)
  | 0, _, _ => .error "out of fuel"
  | fuel + 1, args, env =>
    if args.isNil || (args.cdr).isNil || !((args.cdr).cdr).isNil then
      .error "Special form apply expected exactly two arguments"
    else do
      let (func, env1) ← oldEval mr fuel args.car env
      let (argList, env2) ← oldEval mr fuel ((args.cdr).car) env1
      if !Atom.isProperList argList then
        .error "Expected second argument to apply to be a proper list"
      else do
        let quoted ← quoteElementsInList fuel argList
        oldEval mr fuel (.pair func quoted) env2
termination_by structural fuel => fuel

/-- `quote_elements_in_list`: wrap each element of a list in a
`(quote …)` form. -/
def quoteElementsInList : Nat → Atom → Except String Atom
  | 0, _ => .error "out of fuel"
  | fuel + 1, x => do
    let rest ←
      if (x.cdr).isNil then .ok x.cdr
      else quoteElementsInList fuel x.cdr
    .ok (.pair (.pair (.symbol "quote") (.pair x.car (.symbol "nil"))) rest)
termination_by structural fuel => fuel
end

/-- Evaluate a sequence of top-level expressions against `Env::default`,
threading the environment, and return the last result (nil for an empty
program) — the driver loop that the test harness `run_code` performs, with
`old_eval` as the evaluator. -/
def oldEvalProgram (mr : MacroRule) (fuel : Nat) (exprs : List Atom) :
    Except String Atom :=
  let rec go : List Atom → Atom → Env → Except String Atom
    | [], result, _ => .ok result
    | e :: rest, _, env => do
      let (r, env1) ← oldEval mr fuel e env
      go rest r env1
  go exprs Atom.nilA Env.default

/-! ## The stack-based evaluator `Atom::eval` (src/atom/eval.rs lines 29-70)

`Atom::eval` is the explicit-work-stack rewrite of the evaluator; it is the
entry point used by the driver and the test harness.  As written it handles
only the self-evaluating variants, symbols, and the error cases of a
combination: for a proper-list combination whose head is not a Number,
String or Macro, the `match` names no arm, nothing is pushed onto the work
stack, and the next loop iteration pops the empty stack and returns the
`"Loop without remaining expr to evaluate"` error.  (The source `match` is
literally non-exhaustive; the embedding reads the fall-through as continuing
the loop, which reaches that same error — on every combination the function
fails either way.) -/

/-- The `loop` of `Atom::eval`.  The list is the `VecDeque` used as a stack
(`push_back`/`pop_back`); fuel only bounds the loop. -/
def stackEvalGo : Nat → List Atom → Env → Except String Atom
  | 0, _, _ => .error "out of fuel"
  | fuel + 1, stack, env =>
    match stack with
    | [] => .error "Loop without remaining expr to evaluate"
    | expr :: rest =>
      match expr with
      | .number _ | .nativeFunc _ | .closure _ _ _ | .str _ => .ok expr
      | .mac _ _ _ => .error "Attempt to evaluate macro"
      | .symbol s => env.get s
      | .pair car cdr =>
        if !Atom.isProperList (.pair car cdr) then
          .error "Attempted to evaluate improper list"
        else
          match car with
          | .number _ | .str _ | .mac _ _ _ =>
            .error "Expected a function as first element of evaluated list"
          | _ => stackEvalGo fuel rest env

/-- `Atom::eval`: push the expression and run the loop. -/
def stackEval (fuel : Nat) (expr : Atom) (env : Env) : Except String Atom :=
  stackEvalGo fuel [expr] env

/-! ## The lexer (src/parsing.rs lines 34-90)

The chumsky combinators are modelled by a deterministic scanner over
`List Char`.  Each combinator alternative (`or`) is ordered choice with
backtracking on failure and greedy repetition, which for this grammar is
exactly first-match-wins with maximal munch per alternative; the token order
is that of the source: `(` `)` `.` `'` `,@` `,` `` ` `` number symbol.
`chumsky::Parser::parse` returns `Err` whenever any error was recorded, so
acceptance is modelled by `Option`. -/

/-- The token type of src/parsing.rs. -/
inductive Token where
  | openParen
  | closeParen
  | symbolT (s : String)
  | numberT (s : String)
  | pairSeparator
  | quoteT
  | quasiQuoteT
  | unquoteT
  | unquoteSplicingT
  deriving DecidableEq, Repr

/-- `one_of("abcdefghijklmnopqrstuvwxyz").or(one_of("ABCDEFGHIJKLMNOPQRSTUVWXYZ")).or(one_of("+-*/%_=<>?"))` — the characters that may start a symbol. -/
def isSymStart (c : Char) : Bool :=
  (('a' ≤ c && c ≤ 'z') || ('A' ≤ c && c ≤ 'Z')) ||
    (c == '+' || c == '-' || c == '*' || c == '/' || c == '%' ||
     c == '_' || c == '=' || c == '<' || c == '>' || c == '?')

/-- A decimal digit. -/
def isDigitCh (c : Char) : Bool := '0' ≤ c && c ≤ '9'

/-- Symbol continuation characters: start characters, digits, and `:`. -/
def isSymCh (c : Char) : Bool := isSymStart c || isDigitCh c || c == ':'

/-- Greedy run of characters satisfying `p`. -/
def takeWhileCh (p : Char → Bool) : List Char → List Char × List Char
  | [] => ([], [])
  | c :: cs =>
    if p c then
      let r := takeWhileCh p cs
      (c :: r.1, r.2)
    else ([], c :: cs)

/-- `chumsky::text::int(10)`: either a single `0`, or a nonzero digit
followed by a greedy run of digits.  Returns the consumed characters. -/
def txInt : List Char → Option (List Char × List Char)
  | [] => Option.none
  | c :: cs =>
    if isDigitCh c then
      if c == '0' then Option.some (['0'], cs)
      else
        let r := takeWhileCh isDigitCh cs
        Option.some (c :: r.1, r.2)
    else Option.none

/-- The `frac` sub-parser: `.` followed by at least one digit (greedy); on
failure nothing is consumed (`or_not` backtracks). -/
def txFrac : List Char → List Char × List Char
  | '.' :: cs =>
    match cs with
    | c :: _ =>
      if isDigitCh c then
        let r := takeWhileCh isDigitCh cs
        ('.' :: r.1, r.2)
      else ([], '.' :: cs)
    | [] => ([], ['.'])
  | cs => ([], cs)

/-- The `exp` sub-parser: `e`/`E`, optional sign, at least one digit; on
failure nothing is consumed. -/
def txExp : List Char → List Char × List Char
  | c :: cs =>
    if c == 'e' || c == 'E' then
      match cs with
      | s :: cs' =>
        if s == '+' || s == '-' then
          match cs' with
          | d :: _ =>
            if isDigitCh d then
              let r := takeWhileCh isDigitCh cs'
              (c :: s :: r.1, r.2)
            else ([], c :: cs)
          | [] => ([], c :: cs)
        else if isDigitCh s then
          let r := takeWhileCh isDigitCh cs
          (c :: r.1, r.2)
        else ([], c :: cs)
      | [] => ([], [c])
    else ([], c :: cs)
  | [] => ([], [])

/-- The `number` token parser: optional `-`, `text::int(10)`, optional
fraction, optional exponent. -/
def lexNumber (cs : List Char) : Option (List Char × List Char) :=
  match cs with
  | '-' :: cs' => do
    let (i, rest) ← txInt cs'
    let f := txFrac rest
    let e := txExp f.2
    Option.some ('-' :: (i ++ f.1 ++ e.1), e.2)
  | _ => do
    let (i, rest) ← txInt cs
    let f := txFrac rest
    let e := txExp f.2
    Option.some (i ++ f.1 ++ e.1, e.2)

/-- One token, in the source's alternative order. -/
def lexOne : List Char → Option (Token × List Char)
  | [] => Option.none
  | '(' :: cs => Option.some (.openParen, cs)
  | ')' :: cs => Option.some (.closeParen, cs)
  | '.' :: cs => Option.some (.pairSeparator, cs)
  | '\'' :: cs => Option.some (.quoteT, cs)
  | ',' :: '@' :: cs => Option.some (.unquoteSplicingT, cs)
  | ',' :: cs => Option.some (.unquoteT, cs)
  | '`' :: cs => Option.some (.quasiQuoteT, cs)
  | c :: cs =>
    match lexNumber (c :: cs) with
    | Option.some (nchars, rest) => Option.some (.numberT (String.mk nchars), rest)
    | Option.none =>
      if isSymStart c then
        let r := takeWhileCh isSymCh cs
        Option.some (.symbolT (String.mk (c :: r.1)), r.2)
      else Option.none

/-- `token.padded().repeated().then_ignore(end())`: skip whitespace, lex
tokens until the input is exhausted; any failure rejects the input. -/
def lexLoop : Nat → List Char → Option (List Token)
  | 0, _ => Option.none
  | fuel + 1, cs =>
    let cs' := (takeWhileCh (fun c => c.isWhitespace) cs).2
    match cs' with
    | [] => Option.some []
    | _ => do
      let (t, rest) ← lexOne cs'
      let ts ← lexLoop fuel rest
      Option.some (t :: ts)

/-- The lexer: `lexer().parse(src)`. -/
def lexChars (cs : List Char) : Option (List Token) := lexLoop (cs.length + 1) cs

/-- Lex a string. -/
def lexString (s : String) : Option (List Token) := lexChars s.data

/-! ## Number-literal conversion (`x.parse::<f64>().unwrap()` in the parser)

Exact rational value of a decimal literal, with the IEEE-754 binary64
overflow rule: a value of magnitude at least `2^1024 - 2^970` converts to
infinity (Rust's `str::parse::<f64>` performs the correctly-rounded
conversion, which rounds such values to infinity and never errors on
lexer-shaped literals).  Rounding of in-range literals to the nearest
binary64 is not modelled — values stay exact. -/

/-- Value of a big-endian digit list. -/
def digitsToNat (ds : List Nat) : Nat := ds.foldl (fun acc d => acc * 10 + d) 0

/-- Digit characters to digit values (big-endian). -/
def charsToDigits (cs : List Char) : List Nat := cs.map (fun c => c.toNat - 48)

/-- The overflow threshold of binary64: the smallest real value that rounds
to infinity under round-to-nearest-even. -/
def f64Threshold : Nat := 2 ^ 1024 - 2 ^ 970

/-- The optional leading minus sign of a literal. -/
def splitSign : List Char → Bool × List Char
  | '-' :: cs => (true, cs)
  | cs => (false, cs)

/-- The optional fractional part: a `.` followed by a greedy digit run. -/
def splitFrac : List Char → List Char × List Char
  | '.' :: cs' => takeWhileCh isDigitCh cs'
  | cs => ([], cs)

/-- The optional exponent part, as a signed integer (0 when absent). -/
def readExp : List Char → Int
  | c :: cs' =>
    if c == 'e' || c == 'E' then
      match cs' with
      | '+' :: cs'' => (digitsToNat (charsToDigits (takeWhileCh isDigitCh cs'').1) : Int)
      | '-' :: cs'' => -(digitsToNat (charsToDigits (takeWhileCh isDigitCh cs'').1) : Int)
      | _ => (digitsToNat (charsToDigits (takeWhileCh isDigitCh cs').1) : Int)
    else 0
  | [] => 0

/-- Parse the structure `[-] digits [. digits] [e|E [+|-] digits]` of a
lexer-produced number literal into an exact `F64` (see the section note).
Malformed inputs (unreachable from the lexer) read as 0 digits. -/
def parseF64 (s : String) : F64 :=
  let p := splitSign s.data
  let neg := p.1
  let r1 := takeWhileCh isDigitCh p.2
  let r2 := splitFrac r1.2
  let exp := readExp r2.2
  let fl := r2.1.length
  let mantAbs : Nat := digitsToNat (charsToDigits r1.1) * 10 ^ fl +
    digitsToNat (charsToDigits r2.1)
  let numAbs : Nat := if 0 ≤ exp then mantAbs * 10 ^ exp.toNat else mantAbs
  let den : Nat := if 0 ≤ exp then 10 ^ fl else 10 ^ fl * 10 ^ (-exp).toNat
  if numAbs ≥ f64Threshold * den then (if neg then .negInf else .inf)
  else .finite ⟨if neg then -(numAbs : Int) else (numAbs : Int), den⟩

/-! ## The parser (src/parsing.rs lines 92-166)

Recursive descent over the token list, mirroring the ordered alternatives of
the chumsky `recursive` atom parser: a simple atom (number or symbol), a
list (`()` for nil, a proper list, or a dotted list — the proper branch is
tried first and the dotted branch re-parses the same prefix, which for this
grammar is the same as parsing the element run once and then inspecting the
separator), or one of the four reader-macro prefixes.  Fuel makes the
recursion structural; `parseTokens` supplies more than enough. -/

mutual
/-- One atom. -/
def parseAtomT : Nat → List Token → Option (Atom × List Token)
  | 0, _ => Option.none
  | fuel + 1, ts =>
    match ts with
    | .numberT s :: rest => Option.some (.number (parseF64 s), rest)
    | .symbolT s :: rest => Option.some (.symbol s, rest)
    | .openParen :: .closeParen :: rest => Option.some (Atom.nilA, rest)
    | .openParen :: rest => do
      let (first, rest1) ← parseAtomT fuel rest
      parseListRest fuel first rest1
    | .quoteT :: rest => do
      let (a, rest1) ← parseAtomT fuel rest
      Option.some (Atom.mkList [.symbol "quote", a], rest1)
    | .quasiQuoteT :: rest => do
      let (a, rest1) ← parseAtomT fuel rest
      Option.some (Atom.mkList [.symbol "quasiquote", a], rest1)
    | .unquoteT :: rest => do
      let (a, rest1) ← parseAtomT fuel rest
      Option.some (Atom.mkList [.symbol "unquote", a], rest1)
    | .unquoteSplicingT :: rest => do
      let (a, rest1) ← parseAtomT fuel rest
      Option.some (Atom.mkList [.symbol "unquote-splicing", a], rest1)
    | _ => Option.none
termination_by structural fuel => fuel

/-- The remainder of a parenthesised list after its first element: the
greedy element run, then either `)` (proper list) or `.` atom `)` (dotted
list). -/
def parseListRest : Nat → Atom → List Token → Option (Atom × List Token)
  | 0, _, _ => Option.none
  | fuel + 1, first, ts =>
    let r := parseAtomsStar fuel ts
    let atoms := first :: r.1
    match r.2 with
    | .closeParen :: rest2 => Option.some (Atom.mkList atoms, rest2)
    | .pairSeparator :: rest2 => do
      let (last, rest3) ← parseAtomT fuel rest2
      match rest3 with
      | .closeParen :: rest4 => Option.some (Atom.mkImproper atoms last, rest4)
      | _ => Option.none
    | _ => Option.none
termination_by structural fuel => fuel

/-- `atom.repeated()`: as many atoms as possible (greedy, no backtracking
across the repetition count). -/
def parseAtomsStar : Nat → List Token → List Atom × List Token
  | 0, ts => ([], ts)
  | fuel + 1, ts =>
    match parseAtomT fuel ts with
    | Option.some (a, rest) =>
      let r := parseAtomsStar fuel rest
      (a :: r.1, r.2)
    | Option.none => ([], ts)
termination_by structural fuel => fuel
end

/-- `parser().parse(tokens)`: `atom.repeated().then_ignore(end())`. -/
def parseTokens (ts : List Token) : Option (List Atom) :=
  let r := parseAtomsStar (2 * ts.length + 2) ts
  if r.2 = [] then Option.some r.1 else Option.none

/-- The full pipeline: lex then parse (as `main.rs` and the tests do). -/
def parseString (s : String) : Option (List Atom) := do
  let ts ← lexString s
  parseTokens ts

set_option maxRecDepth 16384

/-! ## Helpers for theorem statements -/

/-- Is an `Except` an error? -/
def exceptIsError {ε α : Type} : Except ε α → Bool
  | .error _ => true
  | .ok _ => false

/-- `(quote a)` — the wrapper built by `quote_elements_in_list`. -/
def quoteWrap (a : Atom) : Atom := .pair (.symbol "quote") (.pair a (.symbol "nil"))

/-! ## Concrete programs used by the claims (abstract syntax, as the parser
would produce it) -/

/-- `(define (f . xs) xs)` — a variadic function returning its argument
list. -/
def progDefVariadic : Atom :=
  Atom.mkList [.symbol "define", .pair (.symbol "f") (.symbol "xs"), .symbol "xs"]

/-- `(f)` -/
def progCallF0 : Atom := Atom.mkList [.symbol "f"]

/-- `(f 1)` -/
def progCallF1 : Atom := Atom.mkList [.symbol "f", Atom.int 1]

/-- `(define x 7)` -/
def progDefX7 : Atom := Atom.mkList [.symbol "define", .symbol "x", Atom.int 7]

/-- `(defmacro (m x) 'x)` — a macro whose expansion is the bare symbol
`x`. -/
def progDefMacM : Atom :=
  Atom.mkList [.symbol "defmacro", Atom.mkList [.symbol "m", .symbol "x"],
    Atom.mkList [.symbol "quote", .symbol "x"]]

/-- `(m 42)` -/
def progCallM42 : Atom := Atom.mkList [.symbol "m", Atom.int 42]

/-- `(defmacro (d) '(define y 1))` — a macro expanding to a definition. -/
def progDefMacD : Atom :=
  Atom.mkList [.symbol "defmacro", Atom.mkList [.symbol "d"],
    Atom.mkList [.symbol "quote",
      Atom.mkList [.symbol "define", .symbol "y", Atom.int 1]]]

/-- `(d)` -/
def progCallD : Atom := Atom.mkList [.symbol "d"]

/-- `(define (g) y)` — `y` is free in the body and unbound in the captured
environment. -/
def progDefG : Atom :=
  Atom.mkList [.symbol "define", Atom.mkList [.symbol "g"], .symbol "y"]

/-- `(define y 7)` — defined only after `g` was created. -/
def progDefY7 : Atom := Atom.mkList [.symbol "define", .symbol "y", Atom.int 7]

/-- `(g)` -/
def progCallG : Atom := Atom.mkList [.symbol "g"]

/-- `(apply + (cons 1 (cons 2 '())))` -/
def progApplyAdd : Atom :=
  Atom.mkList [.symbol "apply", .symbol "+",
    Atom.mkList [.symbol "cons", Atom.int 1,
      Atom.mkList [.symbol "cons", Atom.int 2,
        Atom.mkList [.symbol "quote", .symbol "nil"]]]]

/-- `(apply + '(1 . 2))` — the second operand evaluates to a dotted list. -/
def progApplyImproper : Atom :=
  Atom.mkList [.symbol "apply", .symbol "+",
    Atom.mkList [.symbol "quote", .pair (Atom.int 1) (Atom.int 2)]]

/-- `(apply car (cons (cons 1 2) '()))` — succeeds only because `apply`
quotes the already-evaluated arguments before re-evaluating. -/
def progApplyCar : Atom :=
  Atom.mkList [.symbol "apply", .symbol "car",
    Atom.mkList [.symbol "cons",
      Atom.mkList [.symbol "cons", Atom.int 1, Atom.int 2],
      Atom.mkList [.symbol "quote", .symbol "nil"]]]

/-- `(define f (lambda (x) x))` -/
def progDefIdentity : Atom :=
  Atom.mkList [.symbol "define", .symbol "f",
    Atom.mkList [.symbol "lambda", Atom.mkList [.symbol "x"], .symbol "x"]]

/-- `(= f f)` -/
def progEqFF : Atom := Atom.mkList [.symbol "=", .symbol "f", .symbol "f"]

/-- `(= "hello" "hello")` — the comparison asserted to be `t` by the
repository's own test `tests::equal`. -/
def progEqHello : Atom := Atom.mkList [.symbol "=", .str "hello", .str "hello"]

/-- `(+ 1 2)` -/
def progAdd12 : Atom := Atom.mkList [.symbol "+", Atom.int 1, Atom.int 2]

/-- `(quote 1)` -/
def progQuote1 : Atom := Atom.mkList [.symbol "quote", Atom.int 1]

/-- `(car (cons 1 2))` -/
def progCarCons : Atom :=
  Atom.mkList [.symbol "car", Atom.mkList [.symbol "cons", Atom.int 1, Atom.int 2]]

/-! ## Supporting lemmas -/

/-- Lookup in an environment chain that fails entirely falls through a parent
attached by `add_furthest_parent`: the attached environment resolves the
name. -/
theorem addFurthestParent_get : ∀ (chain caller : Env) (name : String),
    exceptIsError (chain.get name) = true →
    Env.get (Env.addFurthestParent chain caller) name = Env.get caller name
  | .mk b .none, caller, name, h => by
    simp only [Env.get] at h
    cases hl : b.lookup name with
    | some a => simp [hl, exceptIsError] at h
    | none => simp [Env.addFurthestParent, Env.get, hl]
  | .mk b (.some p), caller, name, h => by
    simp only [Env.get] at h
    cases hl : b.lookup name with
    | some a => simp [hl, exceptIsError] at h
    | none =>
      simp only [hl] at h
      simp only [Env.addFurthestParent, Env.get, hl]
      exact addFurthestParent_get p caller name h

/-- `quote_elements_in_list` on a non-empty proper list wraps every element
in a `(quote …)` form (with any sufficient fuel). -/
theorem quoteElementsInList_mkList : ∀ (xs : List Atom) (a : Atom) (fuel : Nat),
    quoteElementsInList (xs.length + fuel + 1) (Atom.mkList (a :: xs)) =
      .ok (Atom.mkList ((a :: xs).map quoteWrap)) := by
  intro xs
  induction xs with
  | nil =>
    intro a fuel
    simp [Atom.mkList, quoteElementsInList, Atom.cdr, Atom.car, Atom.isNil,
      Atom.nilA, quoteWrap, Bind.bind, Except.bind]
  | cons b rest ih =>
    intro a fuel
    have harith : (b :: rest).length + fuel + 1 = rest.length + fuel + 1 + 1 := by
      simp [List.length_cons]; omega
    rw [harith, quoteElementsInList]
    have := ih b fuel
    simp only [Atom.mkList] at this
    simp [Atom.mkList, Atom.cdr, Atom.car, Atom.isNil, this, quoteWrap,
      Bind.bind, Except.bind]

/-! ## C1 -/

/-- C1: the primitive `=` is NOT reflexive on Strings: the `PartialEq` impl
for `Atom` has no String arm, so `(= "hello" "hello")` evaluates to nil —
contradicting the claim, the specification ("on Symbols and Strings by
content") and the repository's own test `tests::equal`, which asserts `t`. -/
theorem c1_string_equality_bug :
    oldEvalProgram .code 32 [progEqHello] = .ok Atom.nilA ∧
    (∀ s : String, atomEq (.str s) (.str s) = false) ∧
    (∀ s : String, applyBuiltin "=" (Atom.mkList [.str s, .str s]) = .ok Atom.nilA) :=
  ⟨rfl, fun _ => rfl, fun _ => rfl⟩

/-! ## C2 -/

/-- C2 counterexample: after `(define (f . xs) xs)`, the call `(f)` does not
return nil — it raises the too-few-arguments error, because the bind loop
checks for exhausted operands before it examines the bare-symbol (variadic
tail) case. -/
theorem c2_counterexample :
    oldEvalProgram .code 64 [progDefVariadic, progCallF0] =
      .error "Too few arguments" := rfl

/-- C2 (amended): when the formals position is a bare symbol and at least
one operand remains, the remaining operands are evaluated and bound as a
list, but with zero remaining operands the closure application raises the
too-few-arguments error: `(f)` fails while `(f 1)` returns `(1)`. -/
theorem c2_variadic_zero_args :
    (∀ s : String, (s == "nil") = false →
      ∀ (mr : MacroRule) (fuel : Nat) (fenv env : Env) (body : Atom),
        oldEvalClosure mr (fuel + 2) fenv env (.symbol s) Atom.nilA body =
          .error "Too few arguments") ∧
    oldEvalProgram .code 64 [progDefVariadic, progCallF1] =
      .ok (Atom.mkList [Atom.int 1]) := by
  constructor
  · intro s hs mr fuel fenv env body
    rw [oldEvalClosure, closureBindLoop]
    simp [Atom.isNil, Atom.nilA, hs, Bind.bind, Except.bind]
  · rfl

/-- C2 witness: the general part at `s := "xs"`, zero fuel offset, the root
environment and a nil body. -/
theorem c2_witness :
    ("xs" == "nil") = false ∧
    oldEvalClosure .code 2 rootEnv rootEnv (.symbol "xs") Atom.nilA Atom.nilA =
      .error "Too few arguments" :=
  ⟨rfl, c2_variadic_zero_args.1 "xs" rfl .code 0 rootEnv rootEnv Atom.nilA⟩

/-! ## C3 -/

/-- C3 counterexample: the source macro semantics and the claimed semantics
(re-evaluate the expansion in the caller's environment) disagree on the
program `(define x 7) (defmacro (m x) 'x) (m 42)`: the source re-evaluates
the expansion `x` in the macro's application environment, where `x` is bound
to the unevaluated operand `42`; under the claimed semantics `x` would
resolve to `7` in the caller's environment. -/
theorem c3_counterexample :
    oldEvalProgram .code 64 [progDefX7, progDefMacM, progCallM42] ≠
      oldEvalProgram .spec 64 [progDefX7, progDefMacM, progCallM42] := by
  intro h
  have h1 : oldEvalProgram .code 64 [progDefX7, progDefMacM, progCallM42] =
      .ok (Atom.int 42) := rfl
  have h2 : oldEvalProgram .spec 64 [progDefX7, progDefMacM, progCallM42] =
      .ok (Atom.int 7) := rfl
  rw [h1, h2] at h
  simp [Atom.int, Frac.ofInt] at h

/-- C3 (amended): each macro body expression is evaluated and its result
immediately evaluated once more, both in the macro's application environment
(formals bound to unevaluated operands, parent chain = captured environment
with the caller's environment appended) — not in the caller's environment:
`(m 42)` returns `42` (the operand captured by the formal `x`), and a
definition performed by an expansion does not escape into the caller's
environment. -/
theorem c3_macro_reevaluation :
    oldEvalProgram .code 64 [progDefX7, progDefMacM, progCallM42] =
      .ok (Atom.int 42) ∧
    oldEvalProgram .code 64 [progDefMacD, progCallD, .symbol "y"] =
      .error "Symbol y is not bound to any value." ∧
    oldEvalProgram .spec 64 [progDefX7, progDefMacM, progCallM42] =
      .ok (Atom.int 7) :=
  ⟨rfl, rfl, rfl⟩

/-! ## C4 -/

/-- C4: closure application builds a fresh frame over the captured
environment with the caller's environment appended at the far end of the
parent chain: a name unbound in the frame and in the captured chain is
resolved through the caller's environment; concretely, `(define (g) y)
(define y 7) (g)` yields `7` although `y` is unbound in `g`'s captured
environment. -/
theorem c4_dynamic_scope_fallback :
    (∀ (b : Bindings) (chain caller : Env) (name : String),
      (b.lookup name).isNone = true →
      exceptIsError (chain.get name) = true →
      Env.get (Env.mk b (.some (Env.addFurthestParent chain caller))) name =
        Env.get caller name) ∧
    oldEvalProgram .code 64 [progDefG, progDefY7, progCallG] = .ok (Atom.int 7) := by
  constructor
  · intro b chain caller name h1 h2
    rw [Env.get]
    cases hl : b.lookup name with
    | some a => rw [hl] at h1; simp at h1
    | none => exact addFurthestParent_get chain caller name h2
  · rfl

/-- C4 witness: the general part applied to an empty frame, the root
environment (which does not bind `y`) as the captured chain, and a caller
environment binding `y` to `7`. -/
theorem c4_witness :
    ((Bindings.nil.lookup "y").isNone = true ∧
      exceptIsError (rootEnv.get "y") = true) ∧
    Env.get (Env.mk .nil (.some (Env.addFurthestParent rootEnv
        (Env.mk (.cons "y" (Atom.int 7) .nil) .none)))) "y" =
      Env.get (Env.mk (.cons "y" (Atom.int 7) .nil) .none) "y" :=
  ⟨⟨rfl, rfl⟩,
    c4_dynamic_scope_fallback.1 .nil rootEnv
      (Env.mk (.cons "y" (Atom.int 7) .nil) .none) "y" rfl rfl⟩

/-! ## C5 -/

/-- C5: `apply` evaluates both operands, fails when the second does not
evaluate to a proper list, and otherwise evaluates a combination of the
evaluated function with every list element quote-wrapped:
`(apply + (cons 1 (cons 2 '())))` gives `3`, `(apply + '(1 . 2))` fails, and
`(apply car (cons (cons 1 2) '()))` gives `1` (the pair argument survives
re-evaluation only because it is quoted); `quote_elements_in_list` wraps
every element of a non-empty proper list in a `(quote …)` form. -/
theorem c5_apply_special_form :
    oldEvalProgram .code 64 [progApplyAdd] = .ok (Atom.int 3) ∧
    oldEvalProgram .code 64 [progApplyImproper] =
      .error "Expected second argument to apply to be a proper list" ∧
    oldEvalProgram .code 64 [progApplyCar] = .ok (Atom.int 1) ∧
    (∀ (xs : List Atom) (a : Atom) (fuel : Nat),
      quoteElementsInList (xs.length + fuel + 1) (Atom.mkList (a :: xs)) =
        .ok (Atom.mkList ((a :: xs).map quoteWrap))) :=
  ⟨rfl, rfl, rfl, quoteElementsInList_mkList⟩

/-! ## C6 -/

/-- C6: the `car`/`cdr`/`cons`/`pair?` builtins satisfy the claimed
equations: `(car (cons a b)) = a`, `(cdr (cons a b)) = b`,
`(pair? (cons a b)) = t`; `car` of nil is nil, and `car`/`cdr` of any
non-Pair value return the value unchanged. -/
theorem c6_car_cdr_cons :
    (∀ a b : Atom, applyBuiltin "car" (Atom.mkList [.pair a b]) = .ok a) ∧
    (∀ a b : Atom, applyBuiltin "cdr" (Atom.mkList [.pair a b]) = .ok b) ∧
    (∀ a b : Atom, applyBuiltin "pair?" (Atom.mkList [.pair a b]) = .ok Atom.tA) ∧
    applyBuiltin "car" (Atom.mkList [Atom.nilA]) = .ok Atom.nilA ∧
    applyBuiltin "cdr" (Atom.mkList [Atom.nilA]) = .ok Atom.nilA ∧
    (∀ v : Atom, v.isPair = false →
      applyBuiltin "car" (Atom.mkList [v]) = .ok v ∧
      applyBuiltin "cdr" (Atom.mkList [v]) = .ok v) ∧
    oldEvalProgram .code 32 [progCarCons] = .ok (Atom.int 1) := by
  refine ⟨fun a b => rfl, fun a b => rfl, fun a b => rfl, rfl, rfl, ?_, rfl⟩
  intro v hv
  cases v with
  | pair a b => simp [Atom.isPair] at hv
  | _ => exact ⟨rfl, rfl⟩

/-- C6 witness: the non-Pair part at the number `5`. -/
theorem c6_witness :
    (Atom.int 5).isPair = false ∧
    (applyBuiltin "car" (Atom.mkList [Atom.int 5]) = .ok (Atom.int 5) ∧
     applyBuiltin "cdr" (Atom.mkList [Atom.int 5]) = .ok (Atom.int 5)) :=
  ⟨rfl, c6_car_cdr_cons.2.2.2.2.2.1 (Atom.int 5) rfl⟩

/-! ## C7 -/

/-- C7: the lexer of src/parsing.rs has no string-literal token at all: any
input containing a double-quoted literal is rejected outright (the `"`
character matches no token), including the exact inputs that the
repository's own tests `tests::read_string` and `tests::equal` expect to
parse into String values; string-free input lexes and parses fine. -/
theorem c7_no_string_literals :
    lexString "\"abc\"" = Option.none ∧
    lexString "(= \"hello\" \"hello\")" = Option.none ∧
    parseString "(+ 1 2)" = Option.some [progAdd12] :=
  ⟨rfl, rfl, rfl⟩

/-! ## C8 -/

/-- C8: the stack-based `Atom::eval` is NOT observationally equivalent to
`Atom::old_eval`: `Atom::eval` is an unfinished rewrite that fails on every
combination (its dispatch match pushes nothing onto the work stack, so the
loop pops an empty stack and errors), while `old_eval` evaluates the same
expressions successfully — e.g. `(+ 1 2)` and `(quote 1)`, both of which
the repository's tests expect to succeed through `Atom::eval`. -/
theorem c8_stack_eval_not_equivalent :
    stackEval 16 progAdd12 Env.default =
      .error "Loop without remaining expr to evaluate" ∧
    stackEval 16 progQuote1 Env.default =
      .error "Loop without remaining expr to evaluate" ∧
    oldEvalProgram .code 32 [progAdd12] = .ok (Atom.int 3) ∧
    oldEvalProgram .code 32 [progQuote1] = .ok (Atom.int 1) :=
  ⟨rfl, rfl, rfl, rfl⟩

/-! ## C10 -/

/-- C10 counterexample: `(= f f)` on the identity closure defined in the
default environment evaluates to nil, not t: the closure's captured
environment chain contains the builtin frame, whose NativeFunc values are
never equal to themselves under the `PartialEq` of `Atom`. -/
theorem c10_counterexample :
    oldEvalProgram .code 64 [progDefIdentity, progEqFF] = .ok Atom.nilA := rfl

/-- C10 (amended): two Closures compare equal under `=` exactly when their
captured environments compare equal under the derived environment equality
(HashMap equality over the same partial atom equality) and their formals and
bodies are pairwise equal; NativeFunc and Macro values are never equal to
anything, themselves included.  Consequently `(= f f)` is NOT `t` for every
closure — it is nil whenever the captured chain binds any NativeFunc, Macro
or String (as the default environment does), and `t` for example for a
closure whose captured environment is empty. -/
theorem c10_closure_equality :
    (∀ (e1 e2 : Env) (a1 b1 a2 b2 : Atom),
      atomEq (.closure e1 a1 b1) (.closure e2 a2 b2) =
        (envEq e1 e2 && atomEq a1 a2 && atomEq b1 b2)) ∧
    (∀ (n : String) (x : Atom), atomEq (.nativeFunc n) x = false) ∧
    (∀ (n : String) (x : Atom), atomEq x (.nativeFunc n) = false) ∧
    (∀ (e : Env) (a b x : Atom), atomEq (.mac e a b) x = false) ∧
    (∀ (e : Env) (a b x : Atom), atomEq x (.mac e a b) = false) ∧
    oldEvalProgram .code 64 [progDefIdentity, progEqFF] = .ok Atom.nilA ∧
    atomEq (.closure (.mk .nil .none) Atom.nilA Atom.nilA)
      (.closure (.mk .nil .none) Atom.nilA Atom.nilA) = true := by
  refine ⟨fun e1 e2 a1 b1 a2 b2 => rfl, ?_, ?_, ?_, ?_, rfl, rfl⟩
  · intro n x; cases x <;> rfl
  · intro n x; cases x <;> rfl
  · intro e a b x; cases x <;> rfl
  · intro e a b x; cases x <;> rfl

/-! ## C9 groundwork: characters, digit strings -/

theorem takeWhileCh_nil_of_head (p : Char → Bool) (c : Char) (cs : List Char)
    (h : p c = false) : takeWhileCh p (c :: cs) = ([], c :: cs) := by
  simp [takeWhileCh, h]

theorem takeWhileCh_all_append (p : Char → Bool) :
    ∀ (l X : List Char), l.all p = true →
      (∀ c cs', X = c :: cs' → p c = false) →
      takeWhileCh p (l ++ X) = (l, X)
  | [], X, _, hX => by
    cases X with
    | nil => rfl
    | cons c cs' => simp [takeWhileCh, hX c cs' rfl]
  | a :: l, X, hl, hX => by
    simp only [List.all_cons, Bool.and_eq_true] at hl
    simp [takeWhileCh, hl.1, takeWhileCh_all_append p l X hl.2 hX]

theorem digitChar_toNat (d : Nat) (h : d < 10) : (digitChar d).toNat = 48 + d := by
  interval_cases d <;> rfl

theorem isDigitCh_digitChar (d : Nat) (h : d < 10) : isDigitCh (digitChar d) = true := by
  interval_cases d <;> rfl

theorem digitChar_ne_zero_char (d : Nat) (h : d < 10) (h0 : d ≠ 0) :
    digitChar d ≠ '0' := by
  interval_cases d <;> simp_all <;> decide

theorem charsToDigits_map_digitChar (ds : List Nat) (h : ∀ d ∈ ds, d < 10) :
    charsToDigits (ds.map digitChar) = ds := by
  induction ds with
  | nil => rfl
  | cons d ds ih =>
    simp only [charsToDigits, List.map_cons, List.map] at *
    rw [ih (fun x hx => h x (by simp [hx]))]
    have := digitChar_toNat d (h d (by simp))
    congr 1
    omega

theorem digitsToNat_append (xs : List Nat) (d : Nat) :
    digitsToNat (xs ++ [d]) = digitsToNat xs * 10 + d := by
  simp [digitsToNat, List.foldl_append]

theorem digitsToNat_reverse (l : List Nat) :
    digitsToNat l.reverse = Nat.ofDigits 10 l := by
  induction l with
  | nil => rfl
  | cons d l ih =>
    rw [List.reverse_cons, digitsToNat_append, ih, Nat.ofDigits_cons]
    ring

/-- The decimal rendering consists solely of digit characters. -/
theorem natToDigitString_all_digits (n : Nat) :
    ((natToDigitString n).data).all isDigitCh = true := by
  by_cases h : n = 0
  · subst h; rfl
  · rw [natToDigitString, if_neg h]
    show ((natDigits n).reverse.map digitChar).all isDigitCh = true
    rw [List.all_eq_true]
    intro c hc
    rw [List.mem_map] at hc
    obtain ⟨d, hd, rfl⟩ := hc
    rw [List.mem_reverse, natDigits_eq] at hd
    exact isDigitCh_digitChar d (Nat.digits_lt_base (by norm_num) hd)

/-- Reading the decimal rendering back gives the number. -/
theorem digitsToNat_natToDigitString (n : Nat) :
    digitsToNat (charsToDigits (natToDigitString n).data) = n := by
  by_cases h : n = 0
  · subst h; rfl
  · rw [natToDigitString, if_neg h]
    show digitsToNat (charsToDigits ((natDigits n).reverse.map digitChar)) = n
    rw [charsToDigits_map_digitChar _ (fun d hd => by
      rw [List.mem_reverse, natDigits_eq] at hd
      exact Nat.digits_lt_base (by norm_num) hd)]
    rw [digitsToNat_reverse, natDigits_eq, Nat.ofDigits_digits]

/-- The rendering of a nonzero number starts with a nonzero digit. -/
theorem natToDigitString_head (n : Nat) (h : n ≠ 0) :
    ∃ c rest, (natToDigitString n).data = c :: rest ∧ isDigitCh c = true ∧
      (c == '0') = false ∧ rest.all isDigitCh = true := by
  rw [natToDigitString, if_neg h]
  have hne : Nat.digits 10 n ≠ [] := Nat.digits_ne_nil_iff_ne_zero.mpr h
  have hrev : (natDigits n).reverse ≠ [] := by
    rw [natDigits_eq]; simpa using hne
  obtain ⟨d, ds, hds⟩ := List.exists_cons_of_ne_nil hrev
  have hdlt : ∀ x ∈ (natDigits n).reverse, x < 10 := by
    intro x hx
    rw [List.mem_reverse, natDigits_eq] at hx
    exact Nat.digits_lt_base (by norm_num) hx
  have hd10 : d < 10 := hdlt d (by rw [hds]; simp)
  have hd0 : d ≠ 0 := by
    have hlast : (Nat.digits 10 n).getLast hne ≠ 0 := Nat.getLast_digit_ne_zero 10 h
    have h1 : (natDigits n).reverse.head? = Option.some d := by rw [hds]; rfl
    rw [List.head?_reverse, natDigits_eq, List.getLast?_eq_getLast _ hne] at h1
    have h3 : (Nat.digits 10 n).getLast hne = d := by
      injection h1
    intro h0
    exact hlast (h3 ▸ h0)
  refine ⟨digitChar d, ds.map digitChar, ?_, isDigitCh_digitChar d hd10, ?_, ?_⟩
  · show ((natDigits n).reverse.map digitChar) = _
    rw [hds]; rfl
  · have := digitChar_ne_zero_char d hd10 hd0
    simpa using this
  · rw [List.all_eq_true]
    intro c hc
    rw [List.mem_map] at hc
    obtain ⟨x, hx, rfl⟩ := hc
    exact isDigitCh_digitChar x (hdlt x (by rw [hds]; simp [hx]))

/-! ## C9 groundwork: fraction digits, zero stripping -/

theorem digitsToNat_zero_cons (l : List Nat) : digitsToNat (0 :: l) = digitsToNat l := by
  simp [digitsToNat, List.foldl]

theorem digitsToNat_replicate_zero (j : Nat) (l : List Nat) :
    digitsToNat (List.replicate j 0 ++ l) = digitsToNat l := by
  induction j with
  | zero => rfl
  | succ j ih => rw [List.replicate_succ, List.cons_append, digitsToNat_zero_cons, ih]

theorem natDigits_len_le (v k : Nat) (h : v < 10 ^ k) : (natDigits v).length ≤ k := by
  rw [natDigits_eq]
  by_cases hv : v = 0
  · subst hv; simp
  · rw [Nat.digits_len 10 v (by norm_num) hv]
    have := Nat.log_lt_of_lt_pow hv h
    omega

theorem padDigits_all_digits (v k : Nat) :
    ((padDigits v k).data).all isDigitCh = true := by
  show ((natDigits v ++ List.replicate (k - (natDigits v).length) 0).reverse.map digitChar).all isDigitCh = true
  rw [List.all_eq_true]
  intro c hc
  rw [List.mem_map] at hc
  obtain ⟨d, hd, rfl⟩ := hc
  rw [List.mem_reverse, List.mem_append] at hd
  apply isDigitCh_digitChar
  rcases hd with hd | hd
  · rw [natDigits_eq] at hd
    exact Nat.digits_lt_base (by norm_num) hd
  · rw [List.eq_of_mem_replicate hd]
    norm_num

theorem padDigits_length (v k : Nat) (h : v < 10 ^ k) :
    ((padDigits v k).data).length = k := by
  show ((natDigits v ++ List.replicate (k - (natDigits v).length) 0).reverse.map digitChar).length = k
  have := natDigits_len_le v k h
  simp [List.length_append, List.length_replicate]
  omega

theorem padDigits_value (v k : Nat) :
    digitsToNat (charsToDigits (padDigits v k).data) = v := by
  show digitsToNat (charsToDigits ((natDigits v ++ List.replicate (k - (natDigits v).length) 0).reverse.map digitChar)) = v
  rw [charsToDigits_map_digitChar _ (fun d hd => by
    rw [List.mem_reverse, List.mem_append] at hd
    rcases hd with hd | hd
    · rw [natDigits_eq] at hd
      exact Nat.digits_lt_base (by norm_num) hd
    · rw [List.eq_of_mem_replicate hd]; norm_num)]
  rw [List.reverse_append, List.reverse_replicate, digitsToNat_replicate_zero,
    digitsToNat_reverse, natDigits_eq, Nat.ofDigits_digits]

theorem stripZeros_spec : ∀ (k m : Nat),
    (stripZeros m k).1 * 10 ^ (k - (stripZeros m k).2) = m ∧ (stripZeros m k).2 ≤ k := by
  intro k
  induction k with
  | zero => intro m; simp [stripZeros]
  | succ k ih =>
    intro m
    rw [stripZeros]
    by_cases h : m % 10 == 0
    · rw [if_pos h]
      obtain ⟨h1, h2⟩ := ih (m / 10)
      constructor
      · have hk : k + 1 - (stripZeros (m / 10) k).2 = (k - (stripZeros (m / 10) k).2) + 1 := by omega
        rw [hk, pow_succ, ← Nat.mul_assoc, h1]
        have : m % 10 = 0 := by simpa using h
        omega
      · omega
    · rw [if_neg h]
      simp

/-! ## C9: reading back a printed number -/

theorem safeNext_not_digit (c : Char) (h : (c == ' ' || c == ')') = true) :
    isDigitCh c = false := by
  have h2 : c = ' ' ∨ c = ')' := by simpa using h
  rcases h2 with h | h <;> (subst h; decide)

theorem isDigitCh_ne_minus (c : Char) (h : isDigitCh c = true) : c ≠ '-' := by
  intro hc; subst hc; exact absurd h (by decide)

theorem splitSign_not_minus (c : Char) (cs : List Char) (h : c ≠ '-') :
    splitSign (c :: cs) = (false, c :: cs) := by
  unfold splitSign
  split
  · next heq =>
    injection heq with h1 _
    exact absurd h1 h
  · rfl

theorem splitFrac_not_dot (c : Char) (cs : List Char) (h : c ≠ '.') :
    splitFrac (c :: cs) = ([], c :: cs) := by
  unfold splitFrac
  split
  · next heq =>
    injection heq with h1 _
    exact absurd h1 h
  · rfl

/-- `str::parse::<f64>` on a rendered decimal `[-] I [. F]` (with `F`
zero-padded to width `k1`) reads back exactly the represented fraction. -/
theorem parseF64_shape (neg : Bool) (I F k1 : Nat) (hF : F < 10 ^ k1)
    (hov : I * 10 ^ k1 + F < f64Threshold * 10 ^ k1) :
    parseF64 (String.mk ((if neg then ['-'] else []) ++ (natToDigitString I).data ++
      (if k1 == 0 then [] else '.' :: (padDigits F k1).data))) =
    .finite ⟨if neg then -((I * 10 ^ k1 + F : Nat) : Int) else ((I * 10 ^ k1 + F : Nat) : Int),
      10 ^ k1⟩ := by
  have hints : ((natToDigitString I).data).all isDigitCh = true := natToDigitString_all_digits I
  have hIne : (natToDigitString I).data ≠ [] := by
    by_cases hI : I = 0
    · subst hI; decide
    · obtain ⟨c, rest, hc, -⟩ := natToDigitString_head I hI
      simp [hc]
  obtain ⟨c0, irest, hi⟩ := List.exists_cons_of_ne_nil hIne
  have hc0digit : isDigitCh c0 = true := by
    have h := hints; rw [hi, List.all_cons, Bool.and_eq_true] at h; exact h.1
  set fracPart : List Char := if k1 == 0 then [] else '.' :: (padDigits F k1).data with hfrac
  have hfrachead : ∀ c cs', fracPart = c :: cs' → isDigitCh c = false := by
    intro c cs' hc
    rw [hfrac] at hc
    by_cases hk : (k1 == 0) = true
    · rw [if_pos hk] at hc; exact absurd hc (by simp)
    · rw [if_neg hk] at hc
      injection hc with h1 _
      subst h1; decide
  have htakeI : takeWhileCh isDigitCh ((natToDigitString I).data ++ fracPart) =
      ((natToDigitString I).data, fracPart) :=
    takeWhileCh_all_append isDigitCh _ _ hints hfrachead
  have hIval : digitsToNat (charsToDigits (natToDigitString I).data) = I :=
    digitsToNat_natToDigitString I
  have hFval : digitsToNat (charsToDigits (padDigits F k1).data) = F := padDigits_value F k1
  -- the sign split
  have hsign : splitSign ((if neg then ['-'] else []) ++ (natToDigitString I).data ++ fracPart)
      = (neg, (natToDigitString I).data ++ fracPart) := by
    cases neg with
    | true => simp [List.cons_append]; rfl
    | false =>
      simp only [if_neg (by simp : ¬(false = true)), List.nil_append]
      rw [hi, List.cons_append, splitSign_not_minus c0 _ (isDigitCh_ne_minus c0 hc0digit),
        ← List.cons_append, ← hi]
  -- the fraction split
  have hfracsplit : splitFrac fracPart =
      (if k1 == 0 then [] else (padDigits F k1).data, []) := by
    rw [hfrac]
    by_cases hk : (k1 == 0) = true
    · rw [if_pos hk, if_pos hk]; rfl
    · rw [if_neg hk, if_neg hk]
      show takeWhileCh isDigitCh (padDigits F k1).data = _
      have := takeWhileCh_all_append isDigitCh (padDigits F k1).data []
        (padDigits_all_digits F k1) (by simp)
      rw [List.append_nil] at this
      exact this
  have hflen : (if k1 == 0 then ([] : List Char) else (padDigits F k1).data).length = k1 := by
    by_cases hk : (k1 == 0) = true
    · rw [if_pos hk]; simp at hk; simp [hk]
    · rw [if_neg hk]
      exact padDigits_length F k1 hF
  have hfval2 : digitsToNat (charsToDigits
      (if k1 == 0 then ([] : List Char) else (padDigits F k1).data)) = F := by
    by_cases hk : (k1 == 0) = true
    · rw [if_pos hk]
      simp at hk
      subst hk
      simp at hF
      simp [hF, charsToDigits, digitsToNat]
    · rw [if_neg hk]; exact hFval
  rw [parseF64]
  simp only [String.data]
  rw [hsign]
  simp only []
  rw [htakeI]
  simp only []
  rw [hfracsplit]
  simp only [List.length_nil]
  rw [hflen, hIval, hfval2]
  simp only [readExp, le_refl, if_pos, Int.toNat_zero, pow_zero, Nat.mul_one]
  rw [if_neg (by omega)]

/-- The printed decimal of a power-of-ten fraction reads back to an equal
fraction (round-trip of the number rendering, up to `f64` `==`). -/
theorem parseF64_displayFinite (m : Int) (k : Nat)
    (hbound : m.natAbs < f64Threshold * 10 ^ k) :
    ∃ q' : Frac, parseF64 (F64.displayFinite ⟨m, 10 ^ k⟩) = .finite q' ∧
      Frac.beq ⟨m, 10 ^ k⟩ q' = true := by
  set n := m.natAbs with hn
  set d := (10 : Nat) ^ k with hd
  have hdpos : 0 < d := by rw [hd]; positivity
  have hdvd : d ∣ 10 ^ d := by
    rw [hd]
    exact pow_dvd_pow 10 (le_of_lt (Nat.lt_pow_self (by norm_num) k))
  set mk0 := n * 10 ^ d / d with hmk0def
  have hmk0 : mk0 * d = n * 10 ^ d := Nat.div_mul_cancel (Dvd.dvd.mul_left hdvd n)
  obtain ⟨hstrip, hk1le⟩ := stripZeros_spec d mk0
  set m1 := (stripZeros mk0 d).1 with hm1
  set k1 := (stripZeros mk0 d).2 with hk1
  have hkey : m1 * d = n * 10 ^ k1 := by
    have h10 : (10 : Nat) ^ d = 10 ^ (d - k1) * 10 ^ k1 := by
      rw [← pow_add]
      congr 1
      omega
    have h1 : (m1 * 10 ^ (d - k1)) * d = n * (10 ^ (d - k1) * 10 ^ k1) := by
      rw [hstrip, ← h10]
      exact hmk0
    have h2 : 10 ^ (d - k1) * (m1 * d) = 10 ^ (d - k1) * (n * 10 ^ k1) := by
      calc 10 ^ (d - k1) * (m1 * d) = (m1 * 10 ^ (d - k1)) * d := by ring
      _ = n * (10 ^ (d - k1) * 10 ^ k1) := h1
      _ = 10 ^ (d - k1) * (n * 10 ^ k1) := by ring
    exact Nat.eq_of_mul_eq_mul_left (pow_pos (by norm_num) _) h2
  have hm1b : m1 < f64Threshold * 10 ^ k1 := by
    by_contra hc
    push_neg at hc
    have h3 : f64Threshold * 10 ^ k1 * d ≤ m1 * d := Nat.mul_le_mul_right d hc
    rw [hkey] at h3
    have h4 : n * 10 ^ k1 < f64Threshold * d * 10 ^ k1 :=
      Nat.mul_lt_mul_of_lt_of_le hbound (le_refl _) (pow_pos (by norm_num) k1)
    have h5 : f64Threshold * 10 ^ k1 * d = f64Threshold * d * 10 ^ k1 := by ring
    omega
  have hdisp : F64.displayFinite ⟨m, 10 ^ k⟩ =
      String.mk ((if decide (m < 0) then ['-'] else []) ++
        (natToDigitString (m1 / 10 ^ k1)).data ++
        (if k1 == 0 then [] else '.' :: (padDigits (m1 % 10 ^ k1) k1).data)) := by
    rfl
  have hshape := parseF64_shape (decide (m < 0)) (m1 / 10 ^ k1) (m1 % 10 ^ k1) k1
    (Nat.mod_lt _ (pow_pos (by norm_num) k1))
    (by rw [Nat.div_add_mod']; exact hm1b)
  rw [Nat.div_add_mod'] at hshape
  rw [hdisp, hshape]
  refine ⟨_, rfl, ?_⟩
  rw [Frac.beq, beq_iff_eq]
  by_cases hm0 : m < 0
  · rw [if_pos (decide_eq_true hm0)]
    show m * ((10 ^ k1 : Nat) : Int) = -(m1 : Int) * (d : Int)
    have hmneg : m = -(n : Int) := by omega
    rw [hmneg, neg_mul, neg_mul, neg_inj]
    exact_mod_cast hkey.symm
  · rw [if_neg (by simpa using hm0)]
    show m * ((10 ^ k1 : Nat) : Int) = (m1 : Int) * (d : Int)
    have hmpos : m = (n : Int) := by omega
    rw [hmpos]
    exact_mod_cast hkey.symm

/-! ## C9: character classes and single-token lexing -/

/-- A continuation is "safe" after a printed element: it is empty or starts
with a space or a closing parenthesis (the only characters the printer ever
emits after an element). -/
def safeNext : List Char → Bool
  | [] => true
  | c :: _ => c == ' ' || c == ')'

theorem isSymStart_not_digit (c : Char) (h : isSymStart c = true) :
    isDigitCh c = false := by
  simp only [isSymStart, isDigitCh, Bool.or_eq_true, Bool.and_eq_true, decide_eq_true_eq,
    beq_iff_eq] at *
  rw [Bool.and_eq_false_iff]
  rcases h with (⟨h1, h2⟩ | ⟨h1, h2⟩) | h
  · right
    rw [decide_eq_false_iff_not]
    intro h3
    exact absurd (le_trans h1 h3) (by decide)
  · right
    rw [decide_eq_false_iff_not]
    intro h3
    exact absurd (le_trans h1 h3) (by decide)
  · rcases h with ((((((((h | h) | h) | h) | h) | h) | h) | h) | h) | h <;> (subst h; decide)

theorem whitespace_cases (c : Char) (h : c.isWhitespace = true) :
    c = ' ' ∨ c = '\t' ∨ c = '\r' ∨ c = '\n' := by
  simp [Char.isWhitespace] at h
  tauto

theorem isDigitCh_not_ws (c : Char) (h : isDigitCh c = true) :
    c.isWhitespace = false := by
  by_contra hc
  rcases whitespace_cases c (by revert hc; cases c.isWhitespace <;> simp) with h1 | h1 | h1 | h1 <;>
    (subst h1; exact absurd h (by decide))

theorem isSymStart_not_ws (c : Char) (h : isSymStart c = true) :
    c.isWhitespace = false := by
  by_contra hc
  rcases whitespace_cases c (by revert hc; cases c.isWhitespace <;> simp) with h1 | h1 | h1 | h1 <;>
    (subst h1; exact absurd h (by decide))

theorem isDigitCh_ne (c x : Char) (h : isDigitCh c = true) (hx : isDigitCh x = false) :
    (c == x) = false := by
  rw [beq_eq_false_iff_ne]
  intro hc
  subst hc
  rw [h] at hx
  simp at hx

theorem isSymStart_ne (c x : Char) (h : isSymStart c = true) (hx : isSymStart x = false) :
    (c == x) = false := by
  rw [beq_eq_false_iff_ne]
  intro hc
  subst hc
  rw [h] at hx
  simp at hx

/-- Reduction of `lexOne` on a head that is not punctuation: first the
number attempt, then the symbol attempt. -/
theorem lexOne_generic (c : Char) (cs : List Char)
    (h1 : (c == '(') = false) (h2 : (c == ')') = false) (h3 : (c == '.') = false)
    (h4 : (c == '\'') = false) (h5 : (c == ',') = false) (h6 : (c == '`') = false) :
    lexOne (c :: cs) =
      match lexNumber (c :: cs) with
      | Option.some (nchars, rest) => Option.some (.numberT (String.mk nchars), rest)
      | Option.none =>
        if isSymStart c then
          Option.some (.symbolT (String.mk (c :: (takeWhileCh isSymCh cs).1)),
            (takeWhileCh isSymCh cs).2)
        else Option.none := by
  unfold lexOne
  split
  · next heq => exact absurd heq (by simp)
  · next heq =>
    injection heq with ha _
    rw [ha] at h1
    simp at h1
  · next heq =>
    injection heq with ha _
    rw [ha] at h2
    simp at h2
  · next heq =>
    injection heq with ha _
    rw [ha] at h3
    simp at h3
  · next heq =>
    injection heq with ha _
    rw [ha] at h4
    simp at h4
  · next heq =>
    injection heq with ha _
    rw [ha] at h5
    simp at h5
  · next heq =>
    injection heq with ha _
    rw [ha] at h5
    simp at h5
  · next heq =>
    injection heq with ha _
    rw [ha] at h6
    simp at h6
  · next c' cs' heq =>
    injection heq with ha hb
    subst ha
    subst hb
    rfl

/-! ## C9: the number and symbol munchers on printed output -/

theorem safeNext_head (X : List Char) (c : Char) (cs' : List Char)
    (hs : safeNext X = true) (hX : X = c :: cs') :
    isDigitCh c = false ∧ (c == '.') = false ∧ (c == 'e' || c == 'E') = false ∧
      isSymCh c = false ∧ (c == '-') = false := by
  subst hX
  have h2 : c = ' ' ∨ c = ')' := by simpa [safeNext] using hs
  rcases h2 with h | h <;> (subst h; refine ⟨by decide, by decide, by decide, by decide, by decide⟩)

theorem txInt_none (X : List Char)
    (hX : ∀ c cs', X = c :: cs' → isDigitCh c = false) :
    txInt X = Option.none := by
  cases X with
  | nil => rfl
  | cons c cs => simp [txInt, hX c cs rfl]

theorem txInt_digits (I : Nat) (X : List Char)
    (hX : ∀ c cs', X = c :: cs' → isDigitCh c = false) :
    txInt ((natToDigitString I).data ++ X) = Option.some ((natToDigitString I).data, X) := by
  by_cases hI : I = 0
  · subst hI
    show txInt ('0' :: X) = Option.some ((natToDigitString 0).data, X)
    rfl
  · obtain ⟨c0, irest, hi, hc0d, hc00, hirest⟩ := natToDigitString_head I hI
    rw [hi, List.cons_append]
    simp only [txInt, hc0d, if_true, hc00, if_false, Bool.false_eq_true]
    rw [takeWhileCh_all_append isDigitCh irest X hirest hX]

theorem txFrac_skip (X : List Char)
    (hX : ∀ c cs', X = c :: cs' → (c == '.') = false) :
    txFrac X = ([], X) := by
  cases X with
  | nil => rfl
  | cons c cs =>
    unfold txFrac
    split
    · next heq =>
      injection heq with ha _
      have := hX c cs rfl
      rw [← ha] at this
      simp at this
    · rfl

theorem txFrac_dot_digits (F k1 : Nat) (X : List Char) (hF : F < 10 ^ k1) (hk : k1 ≠ 0)
    (hX : ∀ c cs', X = c :: cs' → isDigitCh c = false) :
    txFrac ('.' :: ((padDigits F k1).data ++ X)) = ('.' :: (padDigits F k1).data, X) := by
  have hlen := padDigits_length F k1 hF
  have hne : (padDigits F k1).data ≠ [] := by
    intro h0
    rw [h0] at hlen
    simp at hlen
    omega
  obtain ⟨p0, prest, hp⟩ := List.exists_cons_of_ne_nil hne
  have hall := padDigits_all_digits F k1
  have hp0 : isDigitCh p0 = true := by
    rw [hp, List.all_cons, Bool.and_eq_true] at hall
    exact hall.1
  rw [hp, List.cons_append]
  show txFrac ('.' :: (p0 :: (prest ++ X))) = _
  simp only [txFrac, hp0, if_true]
  rw [show p0 :: (prest ++ X) = (p0 :: prest) ++ X from rfl,
    takeWhileCh_all_append isDigitCh (p0 :: prest) X (by rw [← hp]; exact hall) hX]

theorem txExp_skip (X : List Char)
    (hX : ∀ c cs', X = c :: cs' → (c == 'e' || c == 'E') = false) :
    txExp X = ([], X) := by
  cases X with
  | nil => rfl
  | cons c cs => simp [txExp, hX c cs rfl]

/-- `lexNumber` on a rendered decimal followed by a safe continuation
consumes exactly the rendering. -/
theorem lexNumber_shape (neg : Bool) (I F k1 : Nat) (hF : F < 10 ^ k1) (X : List Char)
    (hs : safeNext X = true) :
    lexNumber (((if neg then ['-'] else []) ++ (natToDigitString I).data ++
        (if k1 == 0 then [] else '.' :: (padDigits F k1).data)) ++ X) =
      Option.some ((if neg then ['-'] else []) ++ (natToDigitString I).data ++
        (if k1 == 0 then [] else '.' :: (padDigits F k1).data), X) := by
  set fracPart : List Char := if k1 == 0 then [] else '.' :: (padDigits F k1).data with hfrac
  have hfrachead : ∀ c cs', fracPart ++ X = c :: cs' → isDigitCh c = false := by
    intro c cs' hc
    rw [hfrac] at hc
    by_cases hk : (k1 == 0) = true
    · rw [if_pos hk, List.nil_append] at hc
      exact (safeNext_head X c cs' hs hc).1
    · rw [if_neg hk, List.cons_append] at hc
      injection hc with h1 _
      subst h1
      decide
  have hint : txInt (((natToDigitString I).data ++ fracPart) ++ X) =
      Option.some ((natToDigitString I).data, fracPart ++ X) := by
    rw [List.append_assoc]
    exact txInt_digits I (fracPart ++ X) hfrachead
  have hfracres : txFrac (fracPart ++ X) = (fracPart, X) := by
    rw [hfrac]
    by_cases hk : (k1 == 0) = true
    · rw [if_pos hk, List.nil_append]
      exact txFrac_skip X (fun c cs' hc => (safeNext_head X c cs' hs hc).2.1)
    · rw [if_neg hk, List.cons_append]
      exact txFrac_dot_digits F k1 X hF (by simpa using hk)
        (fun c cs' hc => (safeNext_head X c cs' hs hc).1)
  have hexp : txExp X = ([], X) :=
    txExp_skip X (fun c cs' hc => (safeNext_head X c cs' hs hc).2.2.1)
  cases neg with
  | true =>
    simp only [if_pos rfl, List.cons_append, List.nil_append]
    show lexNumber ('-' :: (((natToDigitString I).data ++ fracPart) ++ X)) = _
    rw [lexNumber]
    rw [hint]
    simp only [Option.bind_eq_bind, Option.some_bind]
    rw [hfracres, hexp]
    simp [List.append_assoc]
  | false =>
    simp only [Bool.false_eq_true, if_false, List.nil_append]
    have hIne : (natToDigitString I).data ≠ [] := by
      by_cases hI : I = 0
      · subst hI; decide
      · obtain ⟨c, rest, hc, -⟩ := natToDigitString_head I hI
        simp [hc]
    obtain ⟨c0, irest, hi⟩ := List.exists_cons_of_ne_nil hIne
    have hc0d : isDigitCh c0 = true := by
      have h := natToDigitString_all_digits I
      rw [hi, List.all_cons, Bool.and_eq_true] at h
      exact h.1
    rw [hi, List.append_assoc, List.cons_append]
    unfold lexNumber
    split
    · next heq =>
      injection heq with ha _
      rw [ha] at hc0d
      exact absurd hc0d (by decide)
    · rw [← List.cons_append, ← hi, ← List.append_assoc, hint]
      simp only [Option.bind_eq_bind, Option.some_bind]
      rw [hfracres, hexp]
      simp [List.append_assoc]

/-! ## C9: lexable symbol names, and `lexOne` on printed atoms -/

/-- Symbol names as the lexer produces them: a symbol-start head, symbol
continuation characters after it, and not shaped like a negative number
literal (`-` followed by a digit), since the number alternative is tried
first. -/
def symbolNameOk (s : String) : Bool :=
  match s.data with
  | [] => false
  | c :: rest =>
    isSymStart c && rest.all isSymCh &&
      !(c == '-' && (match rest with | d :: _ => isDigitCh d | [] => false))

/-- `-` followed by a digit: the shapes that the number alternative claims
before the symbol alternative is tried. -/
def negLit (c : Char) (rest : List Char) : Bool :=
  c == '-' && (match rest with | d :: _ => isDigitCh d | [] => false)

theorem lexNumber_symbol_none (c : Char) (rest X : List Char)
    (hstart : isSymStart c = true)
    (hnotneg : negLit c rest = false)
    (hs : safeNext X = true) :
    lexNumber ((c :: rest) ++ X) = Option.none := by
  rw [List.cons_append]
  by_cases hc : c = '-'
  · subst hc
    have htx : txInt (rest ++ X) = Option.none := by
      cases rest with
      | nil =>
        rw [List.nil_append]
        exact txInt_none X (fun c2 cs2 h2 => (safeNext_head X c2 cs2 hs h2).1)
      | cons d drest =>
        have hd : isDigitCh d = false := by simpa [negLit] using hnotneg
        rw [List.cons_append]
        exact txInt_none _ (fun c2 cs2 h2 => by
          injection h2 with ha _
          rw [← ha]
          exact hd)
    simp [lexNumber, htx]
  · have hcd : isDigitCh c = false := isSymStart_not_digit c hstart
    have htx : txInt (c :: (rest ++ X)) = Option.none :=
      txInt_none _ (fun c2 cs2 h2 => by
        injection h2 with ha _
        rw [← ha]
        exact hcd)
    unfold lexNumber
    split
    · next heq =>
      injection heq with ha _
      exact absurd ha hc
    · rw [htx]
      rfl

theorem lexOne_symbol (c : Char) (rest X : List Char)
    (hstart : isSymStart c = true) (hrest : rest.all isSymCh = true)
    (hnotneg : negLit c rest = false)
    (hs : safeNext X = true) :
    lexOne ((c :: rest) ++ X) =
      Option.some (.symbolT (String.mk (c :: rest)), X) := by
  rw [List.cons_append]
  have h1 : (c == '(') = false := isSymStart_ne c '(' hstart (by decide)
  have h2 : (c == ')') = false := isSymStart_ne c ')' hstart (by decide)
  have h3 : (c == '.') = false := isSymStart_ne c '.' hstart (by decide)
  have h4 : (c == '\'') = false := isSymStart_ne c '\'' hstart (by decide)
  have h5 : (c == ',') = false := isSymStart_ne c ',' hstart (by decide)
  have h6 : (c == '`') = false := isSymStart_ne c '`' hstart (by decide)
  rw [lexOne_generic c (rest ++ X) h1 h2 h3 h4 h5 h6, ← List.cons_append,
    lexNumber_symbol_none c rest X hstart hnotneg hs]
  simp only [hstart, if_true]
  rw [takeWhileCh_all_append isSymCh rest X hrest
    (fun c2 cs2 hc2 => (safeNext_head X c2 cs2 hs hc2).2.2.2.1)]

/-- The rendering of a power-of-ten fraction has the `[-] digits [. digits]`
shape with a width-bounded fractional part. -/
theorem displayFinite_parts (m : Int) (k : Nat) :
    ∃ (neg : Bool) (I F k1 : Nat), F < 10 ^ k1 ∧
      (F64.displayFinite ⟨m, 10 ^ k⟩).data =
        (if neg then ['-'] else []) ++ (natToDigitString I).data ++
          (if k1 == 0 then [] else '.' :: (padDigits F k1).data) := by
  refine ⟨Frac.isNegF ⟨m, 10 ^ k⟩,
    (stripZeros (m.natAbs * 10 ^ (10 ^ k) / 10 ^ k) (10 ^ k)).1 /
      10 ^ (stripZeros (m.natAbs * 10 ^ (10 ^ k) / 10 ^ k) (10 ^ k)).2,
    (stripZeros (m.natAbs * 10 ^ (10 ^ k) / 10 ^ k) (10 ^ k)).1 %
      10 ^ (stripZeros (m.natAbs * 10 ^ (10 ^ k) / 10 ^ k) (10 ^ k)).2,
    (stripZeros (m.natAbs * 10 ^ (10 ^ k) / 10 ^ k) (10 ^ k)).2,
    Nat.mod_lt _ (pow_pos (by norm_num) _), ?_⟩
  rfl

theorem lexNumber_display (m : Int) (k : Nat) (X : List Char) (hs : safeNext X = true) :
    lexNumber ((F64.displayFinite ⟨m, 10 ^ k⟩).data ++ X) =
      Option.some ((F64.displayFinite ⟨m, 10 ^ k⟩).data, X) := by
  obtain ⟨neg, I, F, k1, hF, hd⟩ := displayFinite_parts m k
  rw [hd]
  exact lexNumber_shape neg I F k1 hF X hs

theorem displayFinite_head (m : Int) (k : Nat) :
    ∃ c rest, (F64.displayFinite ⟨m, 10 ^ k⟩).data = c :: rest ∧
      (isDigitCh c = true ∨ c = '-') := by
  obtain ⟨neg, I, F, k1, hF, hd⟩ := displayFinite_parts m k
  cases neg with
  | true =>
    simp only [if_pos, List.singleton_append, List.cons_append] at hd
    exact ⟨'-', _, hd, Or.inr rfl⟩
  | false =>
    rw [if_neg (by simp), List.nil_append] at hd
    have hIne : (natToDigitString I).data ≠ [] := by
      by_cases hI : I = 0
      · subst hI; decide
      · obtain ⟨c, r, hc, -⟩ := natToDigitString_head I hI
        simp [hc]
    obtain ⟨c0, irest, hi⟩ := List.exists_cons_of_ne_nil hIne
    have hc0 : isDigitCh c0 = true := by
      have h := natToDigitString_all_digits I
      rw [hi, List.all_cons, Bool.and_eq_true] at h
      exact h.1
    exact ⟨c0, irest ++ _, by rw [hd, hi, List.cons_append], Or.inl hc0⟩

theorem lexOne_display (m : Int) (k : Nat) (X : List Char) (hs : safeNext X = true) :
    lexOne ((F64.displayFinite ⟨m, 10 ^ k⟩).data ++ X) =
      Option.some (.numberT (F64.displayFinite ⟨m, 10 ^ k⟩), X) := by
  obtain ⟨c, restD, hdata, hcl⟩ := displayFinite_head m k
  have hpunct : (c == '(') = false ∧ (c == ')') = false ∧ (c == '.') = false ∧
      (c == '\'') = false ∧ (c == ',') = false ∧ (c == '`') = false := by
    rcases hcl with h | h
    · exact ⟨isDigitCh_ne c '(' h (by decide), isDigitCh_ne c ')' h (by decide),
        isDigitCh_ne c '.' h (by decide), isDigitCh_ne c '\'' h (by decide),
        isDigitCh_ne c ',' h (by decide), isDigitCh_ne c '`' h (by decide)⟩
    · subst h
      refine ⟨by decide, by decide, by decide, by decide, by decide, by decide⟩
  obtain ⟨h1, h2, h3, h4, h5, h6⟩ := hpunct
  rw [hdata, List.cons_append, lexOne_generic c (restD ++ X) h1 h2 h3 h4 h5 h6,
    ← List.cons_append, ← hdata, lexNumber_display m k X hs]

/-! ## C9: parser-producible shapes and the token sequence of a rendering -/

/-- The expressions the parser can produce (apart from infinities, which are
handled separately): the flag distinguishes head position (`false`) from the
tail of a list rendering (`true`).  Number atoms carry a power-of-ten
denominator and are below the `f64` overflow threshold, exactly as
`parse::<f64>` produces them; symbols are lexer-shaped. -/
inductive PShape : Bool → Atom → Prop where
  | num : ∀ (m : Int) (k : Nat), m.natAbs < f64Threshold * 10 ^ k →
      PShape false (.number (.finite ⟨m, 10 ^ k⟩))
  | sym : ∀ s, symbolNameOk s = true → PShape false (.symbol s)
  | pr : ∀ a b, PShape false a → PShape true b → PShape false (.pair a b)
  | nilT : PShape true (.symbol "nil")
  | symT : ∀ s, (s == "nil") = false → symbolNameOk s = true → PShape true (.symbol s)
  | numT : ∀ (m : Int) (k : Nat), m.natAbs < f64Threshold * 10 ^ k →
      PShape true (.number (.finite ⟨m, 10 ^ k⟩))
  | prT : ∀ a b, PShape false a → PShape true b → PShape true (.pair a b)

/-- A parseable expression: one the parser can produce (and print). -/
def Parseable (e : Atom) : Prop := PShape false e

mutual
/-- The token sequence that lexing `Atom.printDebug e` yields. -/
def tokensOf : Atom → List Token
  | .number i => [.numberT (F64.display i)]
  | .symbol s => [.symbolT s]
  | .pair a b => .openParen :: (tokensOf a ++ (tokensRest b ++ [.closeParen]))
  | _ => []
termination_by structural a => a

/-- The token sequence that lexing `Atom.printRest b` yields. -/
def tokensRest : Atom → List Token
  | .pair a b => tokensOf a ++ tokensRest b
  | .symbol s => if s == "nil" then [] else [.pairSeparator, .symbolT s]
  | .number i => [.pairSeparator, .numberT (F64.display i)]
  | _ => []
termination_by structural a => a
end

theorem symbolNameOk_parts (s : String) (h : symbolNameOk s = true) :
    ∃ c rest, s.data = c :: rest ∧ isSymStart c = true ∧ rest.all isSymCh = true ∧
      negLit c rest = false := by
  rw [symbolNameOk] at h
  cases hs : s.data with
  | nil => rw [hs] at h; simp at h
  | cons c rest =>
    rw [hs] at h
    rw [Bool.and_eq_true, Bool.and_eq_true, Bool.not_eq_true'] at h
    exact ⟨c, rest, rfl, h.1.1, h.1.2, h.2⟩

theorem takeWhileCh_cons_pos (p : Char → Bool) (c : Char) (cs : List Char)
    (h : p c = true) :
    takeWhileCh p (c :: cs) = (c :: (takeWhileCh p cs).1, (takeWhileCh p cs).2) := by
  simp [takeWhileCh, h]

/-- One lexing step: a non-whitespace head that lexes to a token advances
`lexLoop` by that token. -/
theorem lexLoop_step (c : Char) (rest X : List Char) (t : Token) (f : Nat)
    (hws : c.isWhitespace = false)
    (hlex : lexOne (c :: rest) = Option.some (t, X)) :
    lexLoop (f + 1) (c :: rest) = (lexLoop f X).map (fun ts => t :: ts) := by
  simp only [lexLoop]
  rw [takeWhileCh_nil_of_head _ _ _ hws, hlex]
  cases hLL : lexLoop f X <;> simp [hLL]

/-- `lexLoop` skips a leading whitespace character without consuming fuel. -/
theorem lexLoop_ws (c : Char) (cs : List Char) (f : Nat) (h : c.isWhitespace = true) :
    lexLoop (f + 1) (c :: cs) = lexLoop (f + 1) cs := by
  simp only [lexLoop]
  rw [takeWhileCh_cons_pos _ _ _ h]

theorem lexLoop_nil (f : Nat) : lexLoop (f + 1) [] = Option.some [] := rfl

/-- The continuation after a rendered list tail starts safely (a space, a
closing parenthesis, or whatever safe continuation follows). -/
theorem printRestSafeNext (b : Atom) (hb : PShape true b) (X : List Char)
    (hX : safeNext X = true) : safeNext ((Atom.printRest b).data ++ X) = true := by
  cases hb with
  | nilT =>
    show safeNext ((Atom.printRest (.symbol "nil")).data ++ X) = true
    simpa [Atom.printRest] using hX
  | symT s hne hok =>
    show safeNext ((Atom.printRest (.symbol s)).data ++ X) = true
    rw [Atom.printRest, if_neg (by simp_all), String.data_append]
    rfl
  | numT m k hb =>
    show safeNext ((Atom.printRest (.number (.finite ⟨m, 10 ^ k⟩))).data ++ X) = true
    rw [Atom.printRest, String.data_append]
    rfl
  | prT x y hx hy =>
    show safeNext ((Atom.printRest (.pair x y)).data ++ X) = true
    rw [Atom.printRest, String.data_append, String.data_append]
    rfl

/-! ## C9: the lexer reads a rendering back as its token sequence -/

/-- Tokens of a rendering, by position flag. -/
def toksFl : Bool → Atom → List Token
  | true, e => tokensRest e
  | false, e => tokensOf e

/-- Characters of a rendering, by position flag. -/
def charsFl : Bool → Atom → List Char
  | true, e => (Atom.printRest e).data
  | false, e => (Atom.printDebug e).data

theorem pshape_tokensOf_pos (e : Atom) (h : PShape false e) :
    0 < (tokensOf e).length := by
  cases h <;> simp [tokensOf]

/-- Lexing a rendered atom (or list remainder) against a safe continuation
produces exactly its token sequence, then proceeds on the continuation. -/
theorem lexRT (fl : Bool) (e : Atom) (h : PShape fl e) :
    ∀ f X, safeNext X = true →
      lexLoop ((toksFl fl e).length + f) (charsFl fl e ++ X) =
        (lexLoop f X).map (fun ts => toksFl fl e ++ ts) := by
  induction h with
  | num m k hb =>
    intro f X hX
    obtain ⟨c, restD, hdata, hcl⟩ := displayFinite_head m k
    have hws : c.isWhitespace = false := by
      rcases hcl with h | h
      · exact isDigitCh_not_ws c h
      · subst h; decide
    have hlex := lexOne_display m k X hX
    rw [hdata, List.cons_append] at hlex
    have hch : charsFl false (.number (.finite ⟨m, 10 ^ k⟩)) =
        (F64.displayFinite ⟨m, 10 ^ k⟩).data := by
      simp [charsFl, Atom.printDebug, F64.display]
    have htok : toksFl false (.number (.finite ⟨m, 10 ^ k⟩)) =
        [.numberT (F64.displayFinite ⟨m, 10 ^ k⟩)] := by
      simp [toksFl, tokensOf, F64.display]
    rw [hch, htok, hdata, List.cons_append,
      show [Token.numberT (F64.displayFinite ⟨m, 10 ^ k⟩)].length + f = f + 1 from by
        simp [Nat.add_comm],
      lexLoop_step c (restD ++ X) X _ f hws hlex]
    cases hLL : lexLoop f X <;> simp [hLL]
  | sym s hok =>
    intro f X hX
    obtain ⟨c, rest, hsdata, hstart, hall, hneg⟩ := symbolNameOk_parts s hok
    have hws : c.isWhitespace = false := isSymStart_not_ws c hstart
    have hlex := lexOne_symbol c rest X hstart hall hneg hX
    rw [List.cons_append] at hlex
    have hmk : String.mk (c :: rest) = s := by rw [← hsdata]
    rw [hmk] at hlex
    have hch : charsFl false (.symbol s) = s.data := by simp [charsFl, Atom.printDebug]
    have htok : toksFl false (.symbol s) = [.symbolT s] := by simp [toksFl, tokensOf]
    rw [hch, htok, hsdata, List.cons_append,
      show [Token.symbolT s].length + f = f + 1 from by simp [Nat.add_comm],
      lexLoop_step c (rest ++ X) X _ f hws hlex]
    cases hLL : lexLoop f X <;> simp [hLL]
  | pr a b ha hb iha ihb =>
    intro f X hX
    simp only [charsFl, toksFl] at iha ihb ⊢
    have hch : (Atom.printDebug (.pair a b)).data =
        '(' :: ((Atom.printDebug a).data ++ ((Atom.printRest b).data ++ [')'])) := by
      simp [Atom.printDebug, String.data_append, List.append_assoc]
    have hlen : (tokensOf (.pair a b)).length + f =
        ((tokensOf a).length + ((tokensRest b).length + (1 + f))) + 1 := by
      simp [tokensOf]
      omega
    rw [hch, hlen, List.cons_append,
      show ((Atom.printDebug a).data ++ ((Atom.printRest b).data ++ [')'])) ++ X =
          (Atom.printDebug a).data ++ ((Atom.printRest b).data ++ (')' :: X)) from by
        simp [List.append_assoc],
      lexLoop_step '(' _ _ Token.openParen _ (by decide) rfl,
      iha ((tokensRest b).length + (1 + f)) ((Atom.printRest b).data ++ (')' :: X))
        (printRestSafeNext b hb (')' :: X) rfl),
      ihb (1 + f) (')' :: X) rfl,
      show (1 : Nat) + f = f + 1 from Nat.add_comm 1 f,
      lexLoop_step ')' X X Token.closeParen f (by decide) rfl]
    cases hLL : lexLoop f X <;> simp [hLL, tokensOf, List.append_assoc]
  | nilT =>
    intro f X hX
    have htok : tokensRest (.symbol "nil") = [] := by simp [tokensRest]
    have hch : (Atom.printRest (.symbol "nil")).data = [] := by simp [Atom.printRest]
    simp only [charsFl, toksFl]
    rw [htok, hch]
    cases hLL : lexLoop f X <;> simp [hLL]
  | symT s hne hok =>
    intro f X hX
    obtain ⟨c, rest, hsdata, hstart, hall, hneg⟩ := symbolNameOk_parts s hok
    have hws : c.isWhitespace = false := isSymStart_not_ws c hstart
    have hlex := lexOne_symbol c rest X hstart hall hneg hX
    rw [List.cons_append] at hlex
    have hmk : String.mk (c :: rest) = s := by rw [← hsdata]
    rw [hmk] at hlex
    have htok : tokensRest (.symbol s) = [.pairSeparator, .symbolT s] := by
      simp [tokensRest, hne]
    have hch : (Atom.printRest (.symbol s)).data = ' ' :: ('.' :: (' ' :: s.data)) := by
      rw [Atom.printRest, if_neg (by simp [hne]), String.data_append]
      rfl
    simp only [charsFl, toksFl]
    rw [htok, hch,
      show [Token.pairSeparator, Token.symbolT s].length + f = (f + 1) + 1 from by
        simp
        omega,
      List.cons_append, lexLoop_ws ' ' _ (f + 1) (by decide), List.cons_append,
      lexLoop_step '.' _ _ Token.pairSeparator (f + 1) (by decide) rfl,
      List.cons_append, lexLoop_ws ' ' _ f (by decide), hsdata, List.cons_append,
      lexLoop_step c (rest ++ X) X _ f hws hlex]
    cases hLL : lexLoop f X <;> simp [hLL]
  | numT m k hb =>
    intro f X hX
    obtain ⟨c, restD, hdata, hcl⟩ := displayFinite_head m k
    have hws : c.isWhitespace = false := by
      rcases hcl with h | h
      · exact isDigitCh_not_ws c h
      · subst h; decide
    have hlex := lexOne_display m k X hX
    rw [hdata, List.cons_append] at hlex
    have htok : tokensRest (.number (.finite ⟨m, 10 ^ k⟩)) =
        [.pairSeparator, .numberT (F64.displayFinite ⟨m, 10 ^ k⟩)] := by
      simp [tokensRest, F64.display]
    have hch : (Atom.printRest (.number (.finite ⟨m, 10 ^ k⟩))).data =
        ' ' :: ('.' :: (' ' :: (F64.displayFinite ⟨m, 10 ^ k⟩).data)) := by
      rw [Atom.printRest, String.data_append]
      rfl
    simp only [charsFl, toksFl]
    rw [htok, hch,
      show [Token.pairSeparator, Token.numberT (F64.displayFinite ⟨m, 10 ^ k⟩)].length + f =
          (f + 1) + 1 from by
        simp
        omega,
      List.cons_append, lexLoop_ws ' ' _ (f + 1) (by decide), List.cons_append,
      lexLoop_step '.' _ _ Token.pairSeparator (f + 1) (by decide) rfl,
      List.cons_append, lexLoop_ws ' ' _ f (by decide), hdata, List.cons_append,
      lexLoop_step c (restD ++ X) X _ f hws hlex]
    cases hLL : lexLoop f X <;> simp [hLL]
  | prT x y hx hy ihx ihy =>
    intro f X hX
    simp only [charsFl, toksFl] at ihx ihy ⊢
    have hch : (Atom.printRest (.pair x y)).data =
        ' ' :: ((Atom.printDebug x).data ++ (Atom.printRest y).data) := by
      simp [Atom.printRest, String.data_append, List.append_assoc]
    have hpos : 0 < (tokensOf x).length := pshape_tokensOf_pos x hx
    have hlen : (tokensRest (.pair x y)).length + f =
        (tokensOf x).length + ((tokensRest y).length + f) := by
      simp [tokensRest]
      omega
    obtain ⟨n, hn⟩ : ∃ n, (tokensOf x).length + ((tokensRest y).length + f) = n + 1 :=
      ⟨(tokensOf x).length + ((tokensRest y).length + f) - 1, by omega⟩
    rw [hch, hlen, List.cons_append, hn, lexLoop_ws ' ' _ n (by decide), ← hn,
      List.append_assoc,
      ihx ((tokensRest y).length + f) ((Atom.printRest y).data ++ X)
        (printRestSafeNext y hy X hX),
      ihy f X hX]
    cases hLL : lexLoop f X <;> simp [hLL, tokensRest, List.append_assoc]

/-! ## C9: parser-side bookkeeping for the round-trip -/

mutual
/-- Fuel needed by `parseAtomT` to consume `tokensOf e`. -/
def weightOf : Atom → Nat
  | .pair a b => weightOf a + restWeight b + 2
  | _ => 1
termination_by structural a => a

/-- Fuel needed by `parseListRest` to consume `tokensRest e`. -/
def restWeight : Atom → Nat
  | .pair x y => weightOf x + restWeight y + 1
  | _ => 2
termination_by structural a => a
end

/-- The element run of a (possibly improper) list rendering. -/
def elemsOf : Atom → List Atom
  | .pair x y => x :: elemsOf y
  | _ => []

/-- The dotted tail of a list rendering (`nil` for a proper list). -/
def tailOf : Atom → Atom
  | .pair _ y => tailOf y
  | t => t

/-- The tokens after the element run: nothing for a proper list, a dot and
the tail's token otherwise. -/
def tailToks (b : Atom) : List Token :=
  match tailOf b with
  | .symbol s => if s == "nil" then [] else [.pairSeparator, .symbolT s]
  | .number i => [.pairSeparator, .numberT (F64.display i)]
  | _ => []

theorem parseAtomT_closeParen (f : Nat) (ts : List Token) :
    parseAtomT f (.closeParen :: ts) = Option.none := by
  cases f <;> rfl

theorem parseAtomT_pairSep (f : Nat) (ts : List Token) :
    parseAtomT f (.pairSeparator :: ts) = Option.none := by
  cases f <;> rfl

theorem parseAtomT_nilToks (f : Nat) : parseAtomT f [] = Option.none := by
  cases f <;> rfl

theorem parseAtomsStar_closeParen (f : Nat) (ts : List Token) :
    parseAtomsStar f (.closeParen :: ts) = ([], .closeParen :: ts) := by
  cases f with
  | zero => rfl
  | succ n => simp [parseAtomsStar, parseAtomT_closeParen]

theorem parseAtomsStar_pairSep (f : Nat) (ts : List Token) :
    parseAtomsStar f (.pairSeparator :: ts) = ([], .pairSeparator :: ts) := by
  cases f with
  | zero => rfl
  | succ n => simp [parseAtomsStar, parseAtomT_pairSep]

theorem parseAtomT_openParen_cons (n : Nat) (t : Token) (ts : List Token)
    (h1 : t ≠ Token.closeParen) :
    parseAtomT (n + 1) (Token.openParen :: t :: ts) =
      (do
        let (first, rest1) ← parseAtomT n (t :: ts)
        parseListRest n first rest1) := by
  cases t <;> first | rfl | (exact absurd rfl h1)

theorem pshape_tokensOf_cons (e : Atom) (h : PShape false e) :
    ∃ t ts', tokensOf e = t :: ts' ∧ t ≠ Token.closeParen := by
  cases h with
  | num m k hb =>
    exact ⟨.numberT ((F64.finite ⟨m, 10 ^ k⟩).display), [], by simp [tokensOf], by simp⟩
  | sym s hok => exact ⟨.symbolT s, [], by simp [tokensOf], by simp⟩
  | pr a b ha hb =>
    exact ⟨.openParen, tokensOf a ++ (tokensRest b ++ [.closeParen]),
      by simp [tokensOf], by simp⟩

theorem restWeight_pos (b : Atom) : 0 < restWeight b := by
  cases b <;> simp [restWeight]

/-- The dotted tail of a parseable list rendering: either the proper-list
case, or a dot followed by one token that parses back to an equal atom. -/
theorem pshape_tailCases (fl : Bool) (b : Atom) (h : PShape fl b) :
    fl = true →
    (tailToks b = [] ∧ atomEq (tailOf b) (.symbol "nil") = true) ∨
    (∃ tk, tailToks b = [.pairSeparator, tk] ∧
      ∀ f rest, ∃ t', parseAtomT (f + 1) (tk :: rest) = Option.some (t', rest) ∧
        atomEq (tailOf b) t' = true) := by
  induction h with
  | num m k hb => exact fun hc => absurd hc (by decide)
  | sym s hok => exact fun hc => absurd hc (by decide)
  | pr a b ha hb iha ihb => exact fun hc => absurd hc (by decide)
  | nilT =>
    intro _
    left
    exact ⟨by simp [tailToks, tailOf], by simp [tailOf, atomEq]⟩
  | symT s hne hok =>
    intro _
    right
    refine ⟨.symbolT s, by simp [tailToks, tailOf, hne], ?_⟩
    intro f rest
    exact ⟨.symbol s, by simp [parseAtomT], by simp [tailOf, atomEq]⟩
  | numT m k hb =>
    intro _
    right
    obtain ⟨q', hq', hbeq⟩ := parseF64_displayFinite m k hb
    refine ⟨.numberT ((F64.finite ⟨m, 10 ^ k⟩).display), by simp [tailToks, tailOf], ?_⟩
    intro f rest
    refine ⟨.number (parseF64 ((F64.finite ⟨m, 10 ^ k⟩).display)), by simp [parseAtomT], ?_⟩
    show atomEq (tailOf (.number (.finite ⟨m, 10 ^ k⟩)))
      (.number (parseF64 ((F64.finite ⟨m, 10 ^ k⟩).display))) = true
    rw [show (F64.finite ⟨m, 10 ^ k⟩).display = F64.displayFinite ⟨m, 10 ^ k⟩ from rfl, hq']
    simp [tailOf, atomEq, F64.beqIEEE, hbeq]
  | prT x y hx hy ihx ihy =>
    intro _
    have htt : tailToks (.pair x y) = tailToks y := by simp [tailToks, tailOf]
    have hto : tailOf (.pair x y) = tailOf y := by simp [tailOf]
    rw [htt, hto]
    exact ihy rfl

/-! ## C9: the parser reads a token sequence back as the printed atom -/

theorem parseAtomsStar_cons_of_parse (n : Nat) (ts rest1 : List Token) (a : Atom)
    (h : parseAtomT n ts = Option.some (a, rest1)) :
    parseAtomsStar (n + 1) ts =
      (a :: (parseAtomsStar n rest1).1, (parseAtomsStar n rest1).2) := by
  simp [parseAtomsStar, h]

theorem parseListRest_close (n : Nat) (first : Atom) (ts rest2 : List Token)
    (el : List Atom)
    (h : parseAtomsStar n ts = (el, Token.closeParen :: rest2)) :
    parseListRest (n + 1) first ts = Option.some (Atom.mkList (first :: el), rest2) := by
  simp only [parseListRest]
  rw [h]

theorem parseListRest_dotted (n : Nat) (first : Atom) (ts rest2 : List Token)
    (el : List Atom)
    (h : parseAtomsStar n ts = (el, Token.pairSeparator :: rest2)) :
    parseListRest (n + 1) first ts =
      (do
        let (last, rest3) ← parseAtomT n rest2
        match rest3 with
        | Token.closeParen :: rest4 =>
            Option.some (Atom.mkImproper (first :: el) last, rest4)
        | _ => Option.none) := by
  simp only [parseListRest]
  rw [h]

theorem parseAtomT_numberT (f : Nat) (s : String) (ts : List Token) :
    parseAtomT (f + 1) (.numberT s :: ts) = Option.some (.number (parseF64 s), ts) := rfl

theorem parseAtomT_symbolT (f : Nat) (s : String) (ts : List Token) :
    parseAtomT (f + 1) (.symbolT s :: ts) = Option.some (.symbol s, ts) := rfl

/-- Parsing a printed token sequence yields a single atom equal (under the
interpreter's structural equality) to the printed one; in tail position, the
element run and the dotted tail are recovered. -/
theorem parseRT (fl : Bool) (e : Atom) (h : PShape fl e) :
    ∀ f rest,
      match fl with
      | false =>
        ∃ e', parseAtomT (weightOf e + f) (tokensOf e ++ rest) = Option.some (e', rest) ∧
          atomEq e e' = true
      | true =>
        ∃ el', parseAtomsStar (restWeight e + f) (tokensRest e ++ Token.closeParen :: rest) =
            (el', tailToks e ++ Token.closeParen :: rest) ∧
          (tailToks e = [] → atomEq e (Atom.mkList el') = true) ∧
          (∀ t', atomEq (tailOf e) t' = true →
            atomEq e (Atom.mkImproper el' t') = true) := by
  induction h with
  | num m k hb =>
    intro f rest
    obtain ⟨q', hq', hbeq⟩ := parseF64_displayFinite m k hb
    show ∃ e', parseAtomT (weightOf (Atom.number (.finite ⟨m, 10 ^ k⟩)) + f)
        (tokensOf (Atom.number (.finite ⟨m, 10 ^ k⟩)) ++ rest) = Option.some (e', rest) ∧
      atomEq (Atom.number (.finite ⟨m, 10 ^ k⟩)) e' = true
    refine ⟨.number (parseF64 ((F64.finite ⟨m, 10 ^ k⟩).display)), ?_, ?_⟩
    · rw [show weightOf (Atom.number (.finite ⟨m, 10 ^ k⟩)) + f = f + 1 from by
        simp [weightOf]
        omega,
        show tokensOf (Atom.number (.finite ⟨m, 10 ^ k⟩)) ++ rest =
          Token.numberT ((F64.finite ⟨m, 10 ^ k⟩).display) :: rest from by simp [tokensOf]]
      exact parseAtomT_numberT f _ rest
    · rw [show (F64.finite ⟨m, 10 ^ k⟩).display = F64.displayFinite ⟨m, 10 ^ k⟩ from rfl, hq']
      simp [atomEq, F64.beqIEEE, hbeq]
  | sym s hok =>
    intro f rest
    show ∃ e', parseAtomT (weightOf (Atom.symbol s) + f) (tokensOf (Atom.symbol s) ++ rest) =
        Option.some (e', rest) ∧ atomEq (Atom.symbol s) e' = true
    refine ⟨.symbol s, ?_, by simp [atomEq]⟩
    rw [show weightOf (Atom.symbol s) + f = f + 1 from by
      simp [weightOf]
      omega,
      show tokensOf (Atom.symbol s) ++ rest = Token.symbolT s :: rest from by
        simp [tokensOf]]
    exact parseAtomT_symbolT f s rest
  | pr a b ha hb iha ihb =>
    intro f rest
    show ∃ e', parseAtomT (weightOf (Atom.pair a b) + f) (tokensOf (Atom.pair a b) ++ rest) =
        Option.some (e', rest) ∧ atomEq (Atom.pair a b) e' = true
    obtain ⟨t0, ts0, ht0, ht0ne⟩ := pshape_tokensOf_cons a ha
    have hts : tokensOf (Atom.pair a b) ++ rest =
        Token.openParen :: (tokensOf a ++ (tokensRest b ++ (Token.closeParen :: rest))) := by
      simp [tokensOf, List.append_assoc]
    have hfuel : weightOf (Atom.pair a b) + f =
        (weightOf a + (restWeight b + f + 1)) + 1 := by
      simp [weightOf]
      omega
    obtain ⟨a', ha', haeq⟩ := iha (restWeight b + f + 1)
      (tokensRest b ++ (Token.closeParen :: rest))
    have hcons : tokensOf a ++ (tokensRest b ++ (Token.closeParen :: rest)) =
        t0 :: (ts0 ++ (tokensRest b ++ (Token.closeParen :: rest))) := by
      rw [ht0, List.cons_append]
    have hdo : (do
        let (first, rest1) ← parseAtomT (weightOf a + (restWeight b + f + 1))
          (tokensOf a ++ (tokensRest b ++ (Token.closeParen :: rest)))
        parseListRest (weightOf a + (restWeight b + f + 1)) first rest1) =
        parseListRest (weightOf a + (restWeight b + f + 1)) a'
          (tokensRest b ++ (Token.closeParen :: rest)) := by
      rw [ha']
      rfl
    obtain ⟨el', hstar, h3, h4⟩ := ihb (weightOf a + f) rest
    rcases pshape_tailCases true b hb rfl with ⟨htt, -⟩ | ⟨tk, htt, hparse⟩
    · rw [htt, List.nil_append] at hstar
      rw [hts, hfuel, hcons, parseAtomT_openParen_cons _ t0 _ ht0ne, ← List.cons_append,
        ← ht0, hdo,
        show weightOf a + (restWeight b + f + 1) =
          (restWeight b + (weightOf a + f)) + 1 from by omega,
        parseListRest_close _ a' _ _ _ hstar]
      refine ⟨.pair a' (Atom.mkList el'), by simp [Atom.mkList], ?_⟩
      simp [atomEq, haeq, h3 htt]
    · rw [htt] at hstar
      simp only [List.cons_append, List.nil_append] at hstar
      have hpos := restWeight_pos b
      obtain ⟨M', hM'⟩ : ∃ M', restWeight b + (weightOf a + f) = M' + 1 :=
        ⟨restWeight b + (weightOf a + f) - 1, by omega⟩
      obtain ⟨t', hpt, hat⟩ := hparse M' (Token.closeParen :: rest)
      rw [hM'] at hstar
      rw [hts, hfuel, hcons, parseAtomT_openParen_cons _ t0 _ ht0ne, ← List.cons_append,
        ← ht0, hdo,
        show weightOf a + (restWeight b + f + 1) = (M' + 1) + 1 from by omega,
        parseListRest_dotted _ a' _ _ _ hstar, hpt]
      refine ⟨.pair a' (Atom.mkImproper el' t'), ?_, ?_⟩
      · simp [Atom.mkImproper]
      · simp [atomEq, haeq, h4 t' hat]
  | nilT =>
    intro f rest
    show ∃ el', parseAtomsStar (restWeight (Atom.symbol "nil") + f)
        (tokensRest (Atom.symbol "nil") ++ Token.closeParen :: rest) =
          (el', tailToks (Atom.symbol "nil") ++ Token.closeParen :: rest) ∧
      (tailToks (Atom.symbol "nil") = [] →
        atomEq (Atom.symbol "nil") (Atom.mkList el') = true) ∧
      (∀ t', atomEq (tailOf (Atom.symbol "nil")) t' = true →
        atomEq (Atom.symbol "nil") (Atom.mkImproper el' t') = true)
    refine ⟨[], ?_, ?_, ?_⟩
    · rw [show tokensRest (Atom.symbol "nil") = [] from by simp [tokensRest],
        show tailToks (Atom.symbol "nil") = [] from by simp [tailToks, tailOf],
        List.nil_append]
      exact parseAtomsStar_closeParen _ _
    · intro _
      simp [Atom.mkList, Atom.nilA, atomEq]
    · intro t' h
      simpa [Atom.mkImproper, tailOf] using h
  | symT s hne hok =>
    intro f rest
    show ∃ el', parseAtomsStar (restWeight (Atom.symbol s) + f)
        (tokensRest (Atom.symbol s) ++ Token.closeParen :: rest) =
          (el', tailToks (Atom.symbol s) ++ Token.closeParen :: rest) ∧
      (tailToks (Atom.symbol s) = [] → atomEq (Atom.symbol s) (Atom.mkList el') = true) ∧
      (∀ t', atomEq (tailOf (Atom.symbol s)) t' = true →
        atomEq (Atom.symbol s) (Atom.mkImproper el' t') = true)
    have htt : tailToks (Atom.symbol s) = [.pairSeparator, .symbolT s] := by
      simp [tailToks, tailOf, hne]
    have htr : tokensRest (Atom.symbol s) = [.pairSeparator, .symbolT s] := by
      simp [tokensRest, hne]
    refine ⟨[], ?_, ?_, ?_⟩
    · rw [htr, htt]
      simp only [List.cons_append, List.nil_append]
      exact parseAtomsStar_pairSep _ _
    · intro hcontra
      rw [htt] at hcontra
      simp at hcontra
    · intro t' h
      simpa [Atom.mkImproper, tailOf] using h
  | numT m k hb =>
    intro f rest
    show ∃ el', parseAtomsStar (restWeight (Atom.number (.finite ⟨m, 10 ^ k⟩)) + f)
        (tokensRest (Atom.number (.finite ⟨m, 10 ^ k⟩)) ++ Token.closeParen :: rest) =
          (el', tailToks (Atom.number (.finite ⟨m, 10 ^ k⟩)) ++ Token.closeParen :: rest) ∧
      (tailToks (Atom.number (.finite ⟨m, 10 ^ k⟩)) = [] →
        atomEq (Atom.number (.finite ⟨m, 10 ^ k⟩)) (Atom.mkList el') = true) ∧
      (∀ t', atomEq (tailOf (Atom.number (.finite ⟨m, 10 ^ k⟩))) t' = true →
        atomEq (Atom.number (.finite ⟨m, 10 ^ k⟩)) (Atom.mkImproper el' t') = true)
    have htt : tailToks (Atom.number (.finite ⟨m, 10 ^ k⟩)) =
        [.pairSeparator, .numberT ((F64.finite ⟨m, 10 ^ k⟩).display)] := by
      simp [tailToks, tailOf]
    have htr : tokensRest (Atom.number (.finite ⟨m, 10 ^ k⟩)) =
        [.pairSeparator, .numberT ((F64.finite ⟨m, 10 ^ k⟩).display)] := by
      simp [tokensRest]
    refine ⟨[], ?_, ?_, ?_⟩
    · rw [htr, htt]
      simp only [List.cons_append, List.nil_append]
      exact parseAtomsStar_pairSep _ _
    · intro hcontra
      rw [htt] at hcontra
      simp at hcontra
    · intro t' h
      simpa [Atom.mkImproper, tailOf] using h
  | prT x y hx hy ihx ihy =>
    intro f rest
    show ∃ el', parseAtomsStar (restWeight (Atom.pair x y) + f)
        (tokensRest (Atom.pair x y) ++ Token.closeParen :: rest) =
          (el', tailToks (Atom.pair x y) ++ Token.closeParen :: rest) ∧
      (tailToks (Atom.pair x y) = [] →
        atomEq (Atom.pair x y) (Atom.mkList el') = true) ∧
      (∀ t', atomEq (tailOf (Atom.pair x y)) t' = true →
        atomEq (Atom.pair x y) (Atom.mkImproper el' t') = true)
    have htt : tailToks (Atom.pair x y) = tailToks y := by simp [tailToks, tailOf]
    have hto : tailOf (Atom.pair x y) = tailOf y := by simp [tailOf]
    have htr : tokensRest (Atom.pair x y) ++ Token.closeParen :: rest =
        tokensOf x ++ (tokensRest y ++ (Token.closeParen :: rest)) := by
      simp [tokensRest, List.append_assoc]
    have hfuel : restWeight (Atom.pair x y) + f =
        (weightOf x + (restWeight y + f)) + 1 := by
      simp [restWeight]
      omega
    obtain ⟨x', hx', hxeq⟩ := ihx (restWeight y + f) (tokensRest y ++ (Token.closeParen :: rest))
    rw [htr, htt, hfuel, parseAtomsStar_cons_of_parse _ _ _ x' hx',
      show weightOf x + (restWeight y + f) = restWeight y + (weightOf x + f) from by omega]
    obtain ⟨el'y, hstar, h3y, h4y⟩ := ihy (weightOf x + f) rest
    rw [hstar]
    refine ⟨x' :: el'y, by simp, ?_, ?_⟩
    · intro htty
      simp [Atom.mkList, atomEq, hxeq, h3y htty]
    · intro t' h
      rw [hto] at h
      simp [Atom.mkImproper, atomEq, hxeq, h4y t' h]

/-! ## C9: fuel accounting and the end-to-end round trip -/

theorem pshape_counts (fl : Bool) (e : Atom) (h : PShape fl e) :
    match fl with
    | false => (tokensOf e).length ≤ (Atom.printDebug e).data.length ∧
        weightOf e + 1 ≤ 2 * (tokensOf e).length
    | true => (tokensRest e).length ≤ (Atom.printRest e).data.length ∧
        restWeight e ≤ 2 * (tokensRest e).length + 2 := by
  induction h with
  | num m k hb =>
    show (tokensOf (Atom.number (.finite ⟨m, 10 ^ k⟩))).length ≤
        (Atom.printDebug (Atom.number (.finite ⟨m, 10 ^ k⟩))).data.length ∧
      weightOf (Atom.number (.finite ⟨m, 10 ^ k⟩)) + 1 ≤
        2 * (tokensOf (Atom.number (.finite ⟨m, 10 ^ k⟩))).length
    obtain ⟨c, r, hdata, -⟩ := displayFinite_head m k
    have h2 : (Atom.printDebug (Atom.number (.finite ⟨m, 10 ^ k⟩))).data = c :: r := hdata
    have h1 : (tokensOf (Atom.number (.finite ⟨m, 10 ^ k⟩))).length = 1 := by simp [tokensOf]
    have h3 : weightOf (Atom.number (.finite ⟨m, 10 ^ k⟩)) = 1 := by simp [weightOf]
    rw [h1, h2, h3]
    simp
  | sym s hok =>
    show (tokensOf (Atom.symbol s)).length ≤ (Atom.printDebug (Atom.symbol s)).data.length ∧
      weightOf (Atom.symbol s) + 1 ≤ 2 * (tokensOf (Atom.symbol s)).length
    obtain ⟨c, r, hsdata, -, -, -⟩ := symbolNameOk_parts s hok
    have h2 : (Atom.printDebug (Atom.symbol s)).data = c :: r := hsdata
    have h1 : (tokensOf (Atom.symbol s)).length = 1 := by simp [tokensOf]
    have h3 : weightOf (Atom.symbol s) = 1 := by simp [weightOf]
    rw [h1, h2, h3]
    simp
  | pr a b ha hb iha ihb =>
    show (tokensOf (Atom.pair a b)).length ≤ (Atom.printDebug (Atom.pair a b)).data.length ∧
      weightOf (Atom.pair a b) + 1 ≤ 2 * (tokensOf (Atom.pair a b)).length
    obtain ⟨ihl1, ihw1⟩ := iha
    obtain ⟨ihl2, ihw2⟩ := ihb
    have hc : (Atom.printDebug (Atom.pair a b)).data.length =
        (Atom.printDebug a).data.length + (Atom.printRest b).data.length + 2 := by
      simp [Atom.printDebug, String.data_append,
        show (("(" : String)).data = ['('] from rfl,
        show ((")" : String)).data = [')'] from rfl]
      omega
    have ht : (tokensOf (Atom.pair a b)).length =
        (tokensOf a).length + (tokensRest b).length + 2 := by
      simp [tokensOf]
      omega
    have hw : weightOf (Atom.pair a b) = weightOf a + restWeight b + 2 := by
      simp [weightOf]
    constructor
    · omega
    · omega
  | nilT =>
    show (tokensRest (Atom.symbol "nil")).length ≤
        (Atom.printRest (Atom.symbol "nil")).data.length ∧
      restWeight (Atom.symbol "nil") ≤ 2 * (tokensRest (Atom.symbol "nil")).length + 2
    constructor
    · simp [tokensRest]
    · simp [tokensRest, restWeight]
  | symT s hne hok =>
    show (tokensRest (Atom.symbol s)).length ≤ (Atom.printRest (Atom.symbol s)).data.length ∧
      restWeight (Atom.symbol s) ≤ 2 * (tokensRest (Atom.symbol s)).length + 2
    have ht : (tokensRest (Atom.symbol s)).length = 2 := by simp [tokensRest, hne]
    have hc : (Atom.printRest (Atom.symbol s)).data.length = 3 + s.data.length := by
      rw [Atom.printRest, if_neg (by simp [hne]), String.data_append]
      simp [show ((" . " : String)).data = [' ', '.', ' '] from rfl]
      omega
    have hw : restWeight (Atom.symbol s) = 2 := by simp [restWeight]
    constructor
    · omega
    · omega
  | numT m k hb =>
    show (tokensRest (Atom.number (.finite ⟨m, 10 ^ k⟩))).length ≤
        (Atom.printRest (Atom.number (.finite ⟨m, 10 ^ k⟩))).data.length ∧
      restWeight (Atom.number (.finite ⟨m, 10 ^ k⟩)) ≤
        2 * (tokensRest (Atom.number (.finite ⟨m, 10 ^ k⟩))).length + 2
    have ht : (tokensRest (Atom.number (.finite ⟨m, 10 ^ k⟩))).length = 2 := by
      simp [tokensRest]
    have hc : (Atom.printRest (Atom.number (.finite ⟨m, 10 ^ k⟩))).data.length =
        3 + (F64.displayFinite ⟨m, 10 ^ k⟩).data.length := by
      rw [Atom.printRest, String.data_append]
      simp [show ((" . " : String)).data = [' ', '.', ' '] from rfl, F64.display]
      omega
    have hw : restWeight (Atom.number (.finite ⟨m, 10 ^ k⟩)) = 2 := by simp [restWeight]
    constructor
    · omega
    · omega
  | prT x y hx hy ihx ihy =>
    show (tokensRest (Atom.pair x y)).length ≤ (Atom.printRest (Atom.pair x y)).data.length ∧
      restWeight (Atom.pair x y) ≤ 2 * (tokensRest (Atom.pair x y)).length + 2
    obtain ⟨ihl1, ihw1⟩ := ihx
    obtain ⟨ihl2, ihw2⟩ := ihy
    have hc : (Atom.printRest (Atom.pair x y)).data.length =
        1 + (Atom.printDebug x).data.length + (Atom.printRest y).data.length := by
      simp [Atom.printRest, String.data_append,
        show ((" " : String)).data = [' '] from rfl]
      omega
    have ht : (tokensRest (Atom.pair x y)).length =
        (tokensOf x).length + (tokensRest y).length := by
      simp [tokensRest]
    have hw : restWeight (Atom.pair x y) = weightOf x + restWeight y + 1 := by
      simp [restWeight]
    constructor
    · omega
    · omega

theorem parseAtomsStar_nilToks (f : Nat) : parseAtomsStar f [] = ([], []) := by
  cases f with
  | zero => rfl
  | succ n => simp [parseAtomsStar, parseAtomT_nilToks]

theorem lexString_printDebug (e : Atom) (h : PShape false e) :
    lexString (Atom.printDebug e) = Option.some (tokensOf e) := by
  obtain ⟨hlen, -⟩ := pshape_counts false e h
  obtain ⟨g, hg⟩ : ∃ g, ((Atom.printDebug e).data.length + 1) - (tokensOf e).length = g + 1 :=
    ⟨(Atom.printDebug e).data.length - (tokensOf e).length, by omega⟩
  have hlex := lexRT false e h (g + 1) [] rfl
  rw [List.append_nil, lexLoop_nil g] at hlex
  simp only [toksFl, charsFl] at hlex
  have hfuel : (Atom.printDebug e).data.length + 1 = (tokensOf e).length + (g + 1) := by
    omega
  show lexLoop ((Atom.printDebug e).data.length + 1) (Atom.printDebug e).data =
    Option.some (tokensOf e)
  rw [hfuel, hlex]
  simp

theorem parseTokens_tokensOf (e : Atom) (h : PShape false e) :
    ∃ e', parseTokens (tokensOf e) = Option.some [e'] ∧ atomEq e e' = true := by
  obtain ⟨-, hw⟩ := pshape_counts false e h
  obtain ⟨f0, hf0⟩ : ∃ f0, weightOf e + f0 = 2 * (tokensOf e).length + 1 :=
    ⟨2 * (tokensOf e).length + 1 - weightOf e, by omega⟩
  obtain ⟨e', hpe, heq⟩ := parseRT false e h f0 []
  rw [List.append_nil, hf0] at hpe
  refine ⟨e', ?_, heq⟩
  have hstar : parseAtomsStar (2 * (tokensOf e).length + 2) (tokensOf e) = ([e'], []) := by
    rw [show 2 * (tokensOf e).length + 2 = (2 * (tokensOf e).length + 1) + 1 from rfl,
      parseAtomsStar_cons_of_parse _ _ _ e' hpe, parseAtomsStar_nilToks]
  show parseTokens (tokensOf e) = Option.some [e']
  simp only [parseTokens]
  rw [hstar]
  simp

theorem parseString_printDebug (e : Atom) (h : PShape false e) :
    ∃ e', parseString (Atom.printDebug e) = Option.some [e'] ∧ atomEq e e' = true := by
  obtain ⟨e', hp, heq⟩ := parseTokens_tokensOf e h
  refine ⟨e', ?_, heq⟩
  show parseString (Atom.printDebug e) = Option.some [e']
  simp only [parseString]
  rw [lexString_printDebug e h]
  simpa using hp

/-! ## C9: soundness — what the lexer and number conversion can produce -/

/-- No infinite (or NaN) number atom anywhere in the expression. -/
def noInf : Atom → Bool
  | .number (.finite _) => true
  | .number _ => false
  | .pair a b => noInf a && noInf b
  | _ => true

/-- Every symbol token in the list carries a lexer-shaped name. -/
def TokListOk (ts : List Token) : Prop :=
  ∀ s, Token.symbolT s ∈ ts → symbolNameOk s = true

theorem takeWhileCh_all_sat (p : Char → Bool) : ∀ l : List Char,
    (takeWhileCh p l).1.all p = true := by
  intro l
  induction l with
  | nil => rfl
  | cons c cs ih =>
    by_cases hc : p c = true
    · rw [takeWhileCh_cons_pos p c cs hc]
      simp [hc, ih]
    · rw [takeWhileCh_nil_of_head p c cs (by simpa using hc)]
      rfl

theorem takeWhileCh_fst_cons (p : Char → Bool) (l : List Char) (d : Char) (ds : List Char)
    (h : (takeWhileCh p l).1 = d :: ds) : ∃ l', l = d :: l' := by
  cases l with
  | nil => exact absurd h (by simp [takeWhileCh])
  | cons c cs =>
    by_cases hc : p c = true
    · rw [takeWhileCh_cons_pos p c cs hc] at h
      injection h with h1 _
      exact ⟨cs, by rw [h1]⟩
    · rw [takeWhileCh_nil_of_head p c cs (by simpa using hc)] at h
      exact absurd h (by simp)

theorem txInt_digit_some (d : Char) (l : List Char) (hd : isDigitCh d = true) :
    ∃ v, txInt (d :: l) = Option.some v := by
  by_cases h0 : (d == '0') = true
  · exact ⟨(['0'], l), by simp [txInt, hd, h0]⟩
  · exact ⟨(d :: (takeWhileCh isDigitCh l).1, (takeWhileCh isDigitCh l).2),
      by simp [txInt, hd, h0]⟩

theorem lexOne_symbolT_sound (cs0 : List Char) (t : Token) (rest : List Char)
    (h : lexOne cs0 = Option.some (t, rest)) (s : String) (hts : t = Token.symbolT s) :
    symbolNameOk s = true := by
  subst hts
  unfold lexOne at h
  split at h
  · exact absurd h (by simp)
  · simp at h
  · simp at h
  · simp at h
  · simp at h
  · simp at h
  · simp at h
  · simp at h
  · rename_i c cs hx1 hx2 hx3 hx4 hx5 hx6 hx7
    cases hnum : lexNumber (c :: cs) with
    | some p =>
      obtain ⟨nchars, r⟩ := p
      rw [hnum] at h
      simp at h
    | none =>
      rw [hnum] at h
      by_cases hst : isSymStart c = true
      · rw [if_pos hst, Option.some.injEq, Prod.mk.injEq] at h
        obtain ⟨h1, -⟩ := h
        have hs : s = String.mk (c :: (takeWhileCh isSymCh cs).1) := by
          injection h1 with hh
          exact hh.symm
        subst hs
        show (isSymStart c && ((takeWhileCh isSymCh cs).1).all isSymCh &&
          !(c == '-' && (match (takeWhileCh isSymCh cs).1 with
            | d :: _ => isDigitCh d
            | [] => false))) = true
        rw [hst, takeWhileCh_all_sat isSymCh cs]
        simp only [Bool.true_and, Bool.not_eq_true']
        by_cases hc : (c == '-') = true
        · rw [hc, Bool.true_and]
          cases htw : (takeWhileCh isSymCh cs).1 with
          | nil => rfl
          | cons d ds =>
            show isDigitCh d = false
            by_contra hdx
            have hdd : isDigitCh d = true := by simpa using hdx
            obtain ⟨cs', hcs'⟩ := takeWhileCh_fst_cons isSymCh cs d ds htw
            obtain ⟨v, hv⟩ := txInt_digit_some d cs' hdd
            have hcm : c = '-' := by simpa using hc
            rw [hcm, hcs'] at hnum
            simp [lexNumber, hv] at hnum
        · simp [hc]
      · rw [if_neg hst] at h
        exact absurd h (by simp)

theorem lexLoop_sound : ∀ f cs ts, lexLoop f cs = Option.some ts → TokListOk ts := by
  intro f
  induction f with
  | zero =>
    intro cs ts h
    exact absurd h (by simp [lexLoop])
  | succ n ih =>
    intro cs ts h
    simp only [lexLoop] at h
    cases hcs' : (takeWhileCh (fun c => c.isWhitespace) cs).2 with
    | nil =>
      rw [hcs'] at h
      have hts : ts = [] := by simpa using h.symm
      subst hts
      intro s hmem
      simp at hmem
    | cons c0 cs0 =>
      rw [hcs'] at h
      cases hone : lexOne (c0 :: cs0) with
      | none =>
        rw [hone] at h
        exact absurd h (by simp)
      | some p =>
        obtain ⟨t, tr⟩ := p
        rw [hone] at h
        simp only [Option.bind_eq_bind, Option.some_bind] at h
        cases hrec : lexLoop n tr with
        | none =>
          rw [hrec] at h
          exact absurd h (by simp)
        | some ts' =>
          rw [hrec] at h
          have hts : ts = t :: ts' := by simpa using h.symm
          subst hts
          intro s hmem
          rcases List.mem_cons.mp hmem with hh | hh
          · exact lexOne_symbolT_sound (c0 :: cs0) t tr hone s hh.symm
          · exact ih tr ts' hrec s hh

theorem lexString_sound (str : String) (ts : List Token)
    (h : lexString str = Option.some ts) : TokListOk ts :=
  lexLoop_sound (str.data.length + 1) str.data ts h

theorem parseF64_sound (s : String) :
    (∃ m k, parseF64 s = .finite ⟨m, 10 ^ k⟩ ∧ m.natAbs < f64Threshold * 10 ^ k) ∨
    parseF64 s = F64.inf ∨ parseF64 s = F64.negInf := by
  rw [parseF64]
  set neg := (splitSign s.data).1 with hneg
  set r1 := takeWhileCh isDigitCh (splitSign s.data).2 with hr1
  set r2 := splitFrac r1.2 with hr2
  set ex := readExp r2.2 with hexdef
  set fl := r2.1.length with hfl
  set mant := digitsToNat (charsToDigits r1.1) * 10 ^ fl +
    digitsToNat (charsToDigits r2.1) with hmant
  by_cases hexp : 0 ≤ ex
  · simp only [if_pos hexp]
    by_cases hov : mant * 10 ^ ex.toNat ≥ f64Threshold * 10 ^ fl
    · rw [if_pos hov]
      cases hnn : neg with
      | true => exact Or.inr (Or.inr (by simp))
      | false => exact Or.inr (Or.inl (by simp))
    · rw [if_neg hov]
      left
      by_cases hnn : neg = true
      · rw [if_pos hnn]
        refine ⟨_, fl, rfl, ?_⟩
        rw [Int.natAbs_neg, Int.natAbs_ofNat]
        omega
      · rw [if_neg hnn]
        refine ⟨_, fl, rfl, ?_⟩
        rw [Int.natAbs_ofNat]
        omega
  · simp only [if_neg hexp]
    have hdeneq : (10 : Nat) ^ fl * 10 ^ (-ex).toNat = 10 ^ (fl + (-ex).toNat) :=
      (pow_add 10 fl _).symm
    by_cases hov : mant ≥ f64Threshold * (10 ^ fl * 10 ^ (-ex).toNat)
    · rw [if_pos hov]
      cases hnn : neg with
      | true => exact Or.inr (Or.inr (by simp))
      | false => exact Or.inr (Or.inl (by simp))
    · rw [if_neg hov]
      left
      rw [hdeneq] at hov ⊢
      by_cases hnn : neg = true
      · rw [if_pos hnn]
        refine ⟨_, fl + (-ex).toNat, rfl, ?_⟩
        rw [Int.natAbs_neg, Int.natAbs_ofNat]
        omega
      · rw [if_neg hnn]
        refine ⟨_, fl + (-ex).toNat, rfl, ?_⟩
        rw [Int.natAbs_ofNat]
        omega

/-! ## C9: soundness — everything the parser produces is parseable (or infinite) -/

theorem pshape_false_to_true (a : Atom) (h : PShape false a) : PShape true a := by
  cases h with
  | num m k hb => exact PShape.numT m k hb
  | sym s hok =>
    by_cases hs : (s == "nil") = true
    · have hs' : s = "nil" := by simpa using hs
      subst hs'
      exact PShape.nilT
    · exact PShape.symT s (by simpa using hs) hok
  | pr a b ha hb => exact PShape.prT a b ha hb

theorem mkList_pshape (l : List Atom) (h : ∀ x ∈ l, PShape false x) :
    PShape true (Atom.mkList l) := by
  induction l with
  | nil => exact PShape.nilT
  | cons x xs ih =>
    exact PShape.prT x (Atom.mkList xs) (h x (by simp)) (ih fun y hy => h y (by simp [hy]))

theorem mkImproper_pshape (l : List Atom) (last : Atom) (h : ∀ x ∈ l, PShape false x)
    (hlast : PShape true last) : PShape true (Atom.mkImproper l last) := by
  induction l with
  | nil => exact hlast
  | cons x xs ih =>
    exact PShape.prT x (Atom.mkImproper xs last) (h x (by simp))
      (ih fun y hy => h y (by simp [hy]))

theorem noInf_mkList_mem (l : List Atom) (h : noInf (Atom.mkList l) = true) :
    ∀ x ∈ l, noInf x = true := by
  induction l with
  | nil =>
    intro x hx
    simp at hx
  | cons y ys ih =>
    have h' : noInf y = true ∧ noInf (Atom.mkList ys) = true := by
      simpa [Atom.mkList, noInf] using h
    intro x hx
    rcases List.mem_cons.mp hx with rfl | hx2
    · exact h'.1
    · exact ih h'.2 x hx2

theorem noInf_mkImproper_mem (l : List Atom) (last : Atom)
    (h : noInf (Atom.mkImproper l last) = true) :
    (∀ x ∈ l, noInf x = true) ∧ noInf last = true := by
  induction l with
  | nil =>
    refine ⟨?_, h⟩
    intro x hx
    simp at hx
  | cons y ys ih =>
    have h' : noInf y = true ∧ noInf (Atom.mkImproper ys last) = true := by
      simpa [Atom.mkImproper, noInf] using h
    obtain ⟨hall, hl⟩ := ih h'.2
    refine ⟨?_, hl⟩
    intro x hx
    rcases List.mem_cons.mp hx with rfl | hx2
    · exact h'.1
    · exact hall x hx2

theorem parseAtomT_openParen_nil (n : Nat) :
    parseAtomT (n + 1) [Token.openParen] = Option.none := by
  have h0 : parseAtomT (n + 1) [Token.openParen] =
      (do
        let (first, rest1) ← parseAtomT n []
        parseListRest n first rest1) := rfl
  rw [h0, parseAtomT_nilToks]
  rfl

theorem parseAtomT_open_close (n : Nat) (ts : List Token) :
    parseAtomT (n + 1) (Token.openParen :: Token.closeParen :: ts) =
      Option.some (Atom.nilA, ts) := rfl

theorem parseAtomT_quoteT (n : Nat) (ts : List Token) :
    parseAtomT (n + 1) (Token.quoteT :: ts) =
      (do
        let (a, rest1) ← parseAtomT n ts
        Option.some (Atom.mkList [.symbol "quote", a], rest1)) := rfl

theorem parseAtomT_quasiQuoteT (n : Nat) (ts : List Token) :
    parseAtomT (n + 1) (Token.quasiQuoteT :: ts) =
      (do
        let (a, rest1) ← parseAtomT n ts
        Option.some (Atom.mkList [.symbol "quasiquote", a], rest1)) := rfl

theorem parseAtomT_unquoteT (n : Nat) (ts : List Token) :
    parseAtomT (n + 1) (Token.unquoteT :: ts) =
      (do
        let (a, rest1) ← parseAtomT n ts
        Option.some (Atom.mkList [.symbol "unquote", a], rest1)) := rfl

theorem parseAtomT_unquoteSplicingT (n : Nat) (ts : List Token) :
    parseAtomT (n + 1) (Token.unquoteSplicingT :: ts) =
      (do
        let (a, rest1) ← parseAtomT n ts
        Option.some (Atom.mkList [.symbol "unquote-splicing", a], rest1)) := rfl

theorem parseListRest_stuck_nil (n : Nat) (first : Atom) (ts : List Token)
    (el : List Atom) (h : parseAtomsStar n ts = (el, [])) :
    parseListRest (n + 1) first ts = Option.none := by
  simp only [parseListRest]
  rw [h]

theorem parseListRest_stuck_other (n : Nat) (first : Atom) (ts rest2 : List Token)
    (el : List Atom) (t2 : Token) (h : parseAtomsStar n ts = (el, t2 :: rest2))
    (hne1 : t2 ≠ Token.closeParen) (hne2 : t2 ≠ Token.pairSeparator) :
    parseListRest (n + 1) first ts = Option.none := by
  simp only [parseListRest]
  rw [h]
  cases t2 <;> first | rfl | (exact absurd rfl hne1) | (exact absurd rfl hne2)

/-- The list-remainder step of the soundness induction, factored out. -/
theorem openStep (n : Nat)
    (ihA : ∀ ts a rest, parseAtomT n ts = Option.some (a, rest) → TokListOk ts →
      (noInf a = true → PShape false a) ∧ TokListOk rest)
    (ihL : ∀ first ts a rest, parseListRest n first ts = Option.some (a, rest) →
      TokListOk ts → (noInf first = true → PShape false first) →
      (noInf a = true → PShape false a) ∧ TokListOk rest)
    (ts1 : List Token) (a : Atom) (rest : List Token)
    (h : (do
      let (first, rest1) ← parseAtomT n ts1
      parseListRest n first rest1) = Option.some (a, rest))
    (hok : TokListOk ts1) :
    (noInf a = true → PShape false a) ∧ TokListOk rest := by
  cases hA : parseAtomT n ts1 with
  | none =>
    rw [hA] at h
    exact absurd h (by simp)
  | some p =>
    obtain ⟨first, rest1⟩ := p
    rw [hA] at h
    simp only [Option.bind_eq_bind, Option.some_bind] at h
    obtain ⟨hfst, hok1⟩ := ihA ts1 first rest1 hA hok
    exact ihL first rest1 a rest h hok1 hfst

/-- The reader-macro step of the soundness induction, factored out. -/
theorem quoteStep (n : Nat)
    (ihA : ∀ ts a rest, parseAtomT n ts = Option.some (a, rest) → TokListOk ts →
      (noInf a = true → PShape false a) ∧ TokListOk rest)
    (name : String) (hname : symbolNameOk name = true)
    (ts1 : List Token) (a : Atom) (rest : List Token)
    (h : (do
      let (a1, rest1) ← parseAtomT n ts1
      Option.some (Atom.mkList [.symbol name, a1], rest1)) = Option.some (a, rest))
    (hok : TokListOk ts1) :
    (noInf a = true → PShape false a) ∧ TokListOk rest := by
  cases hA : parseAtomT n ts1 with
  | none =>
    rw [hA] at h
    exact absurd h (by simp)
  | some p =>
    obtain ⟨a1, r1⟩ := p
    rw [hA] at h
    simp only [Option.bind_eq_bind, Option.some_bind, Option.some.injEq, Prod.mk.injEq] at h
    obtain ⟨ha, hr⟩ := h
    subst ha
    subst hr
    obtain ⟨ha1, hok1⟩ := ihA ts1 a1 r1 hA hok
    refine ⟨?_, hok1⟩
    intro hno
    have hno1 : noInf a1 = true := by
      simpa [Atom.mkList, Atom.nilA, noInf] using hno
    exact PShape.pr _ _ (PShape.sym name hname) (PShape.prT a1 _ (ha1 hno1) PShape.nilT)

/-- Soundness of the parser: every atom a successful parse yields is
parseable, unless it contains an infinite number (from an overflowing
literal); symbol tokens are assumed lexer-shaped. -/
theorem parserSound : ∀ n : Nat,
    (∀ ts a rest, parseAtomT n ts = Option.some (a, rest) → TokListOk ts →
      (noInf a = true → PShape false a) ∧ TokListOk rest) ∧
    (∀ first ts a rest, parseListRest n first ts = Option.some (a, rest) → TokListOk ts →
      (noInf first = true → PShape false first) →
      (noInf a = true → PShape false a) ∧ TokListOk rest) ∧
    (∀ ts, TokListOk ts →
      (∀ x ∈ (parseAtomsStar n ts).1, noInf x = true → PShape false x) ∧
      TokListOk (parseAtomsStar n ts).2) := by
  intro n
  induction n with
  | zero =>
    refine ⟨?_, ?_, ?_⟩
    · intro ts a rest h
      exact absurd h (by simp [parseAtomT])
    · intro first ts a rest h
      exact absurd h (by simp [parseListRest])
    · intro ts hts
      refine ⟨?_, by simpa [parseAtomsStar] using hts⟩
      intro x hx
      simp [parseAtomsStar] at hx
  | succ n ih =>
    obtain ⟨ihA, ihL, ihS⟩ := ih
    refine ⟨?_, ?_, ?_⟩
    · intro ts a rest h hok
      cases ts with
      | nil =>
        rw [parseAtomT_nilToks] at h
        exact absurd h (by simp)
      | cons t ts1 =>
        have hokr : TokListOk ts1 := fun s2 hs2 => hok s2 (List.mem_cons_of_mem _ hs2)
        cases t with
        | numberT s =>
          rw [parseAtomT_numberT, Option.some.injEq, Prod.mk.injEq] at h
          obtain ⟨ha, hr⟩ := h
          subst ha
          subst hr
          refine ⟨?_, hokr⟩
          intro hno
          rcases parseF64_sound s with ⟨m, k, hfin, hb⟩ | hinf | hninf
          · rw [hfin]
            exact PShape.num m k hb
          · rw [hinf] at hno
            simp [noInf] at hno
          · rw [hninf] at hno
            simp [noInf] at hno
        | symbolT s =>
          rw [parseAtomT_symbolT, Option.some.injEq, Prod.mk.injEq] at h
          obtain ⟨ha, hr⟩ := h
          subst ha
          subst hr
          exact ⟨fun _ => PShape.sym s (hok s (by simp)), hokr⟩
        | closeParen =>
          rw [parseAtomT_closeParen] at h
          exact absurd h (by simp)
        | pairSeparator =>
          rw [parseAtomT_pairSep] at h
          exact absurd h (by simp)
        | quoteT =>
          rw [parseAtomT_quoteT] at h
          exact quoteStep n ihA "quote" (by decide) ts1 a rest h hokr
        | quasiQuoteT =>
          rw [parseAtomT_quasiQuoteT] at h
          exact quoteStep n ihA "quasiquote" (by decide) ts1 a rest h hokr
        | unquoteT =>
          rw [parseAtomT_unquoteT] at h
          exact quoteStep n ihA "unquote" (by decide) ts1 a rest h hokr
        | unquoteSplicingT =>
          rw [parseAtomT_unquoteSplicingT] at h
          exact quoteStep n ihA "unquote-splicing" (by decide) ts1 a rest h hokr
        | openParen =>
          cases ts1 with
          | nil =>
            rw [parseAtomT_openParen_nil] at h
            exact absurd h (by simp)
          | cons t2 ts2 =>
            have hokr2 : TokListOk ts2 := fun s2 hs2 => hokr s2 (List.mem_cons_of_mem _ hs2)
            cases t2 with
            | closeParen =>
              rw [parseAtomT_open_close, Option.some.injEq, Prod.mk.injEq] at h
              obtain ⟨ha, hr⟩ := h
              subst ha
              subst hr
              exact ⟨fun _ => PShape.sym "nil" (by decide), hokr2⟩
            | openParen =>
              rw [parseAtomT_openParen_cons n _ _ (by simp)] at h
              exact openStep n ihA ihL _ a rest h hokr
            | symbolT s =>
              rw [parseAtomT_openParen_cons n _ _ (by simp)] at h
              exact openStep n ihA ihL _ a rest h hokr
            | numberT s =>
              rw [parseAtomT_openParen_cons n _ _ (by simp)] at h
              exact openStep n ihA ihL _ a rest h hokr
            | pairSeparator =>
              rw [parseAtomT_openParen_cons n _ _ (by simp)] at h
              exact openStep n ihA ihL _ a rest h hokr
            | quoteT =>
              rw [parseAtomT_openParen_cons n _ _ (by simp)] at h
              exact openStep n ihA ihL _ a rest h hokr
            | quasiQuoteT =>
              rw [parseAtomT_openParen_cons n _ _ (by simp)] at h
              exact openStep n ihA ihL _ a rest h hokr
            | unquoteT =>
              rw [parseAtomT_openParen_cons n _ _ (by simp)] at h
              exact openStep n ihA ihL _ a rest h hokr
            | unquoteSplicingT =>
              rw [parseAtomT_openParen_cons n _ _ (by simp)] at h
              exact openStep n ihA ihL _ a rest h hokr
    · intro first ts a rest h hok hfst
      obtain ⟨hels0, hokr0⟩ := ihS ts hok
      cases h2 : (parseAtomsStar n ts).2 with
      | nil =>
        have hstar : parseAtomsStar n ts = ((parseAtomsStar n ts).1, ([] : List Token)) := by
          rw [← h2]
        rw [parseListRest_stuck_nil n first ts _ hstar] at h
        exact absurd h (by simp)
      | cons t2 rest2 =>
        have hstar : parseAtomsStar n ts =
            ((parseAtomsStar n ts).1, t2 :: rest2) := by
          rw [← h2]
        have hokr : TokListOk (t2 :: rest2) := by
          rw [← h2]
          exact hokr0
        have hokr2 : TokListOk rest2 := fun s2 hs2 => hokr s2 (List.mem_cons_of_mem _ hs2)
        cases t2 with
        | closeParen =>
          rw [parseListRest_close n first ts rest2 _ hstar, Option.some.injEq,
            Prod.mk.injEq] at h
          obtain ⟨ha, hr⟩ := h
          subst ha
          subst hr
          refine ⟨?_, hokr2⟩
          intro hno
          have hmem := noInf_mkList_mem _ hno
          exact PShape.pr first _ (hfst (hmem first (by simp)))
            (mkList_pshape _ fun x hx =>
              hels0 x hx (hmem x (List.mem_cons_of_mem _ hx)))
        | pairSeparator =>
          rw [parseListRest_dotted n first ts rest2 _ hstar] at h
          cases hA : parseAtomT n rest2 with
          | none =>
            rw [hA] at h
            exact absurd h (by simp)
          | some p =>
            obtain ⟨lastA, rest3⟩ := p
            rw [hA] at h
            simp only [Option.bind_eq_bind, Option.some_bind] at h
            obtain ⟨hlast, hokr3⟩ := ihA rest2 lastA rest3 hA hokr2
            cases rest3 with
            | nil => simp at h
            | cons t3 rest4 =>
              have hokr4 : TokListOk rest4 := fun s2 hs2 =>
                hokr3 s2 (List.mem_cons_of_mem _ hs2)
              cases t3 with
              | closeParen =>
                simp only [Option.some.injEq, Prod.mk.injEq] at h
                obtain ⟨ha, hr⟩ := h
                subst ha
                subst hr
                refine ⟨?_, hokr4⟩
                intro hno
                obtain ⟨hall, hl⟩ := noInf_mkImproper_mem _ _ hno
                exact PShape.pr first _ (hfst (hall first (by simp)))
                  (mkImproper_pshape _ _
                    (fun x hx => hels0 x hx (hall x (List.mem_cons_of_mem _ hx)))
                    (pshape_false_to_true lastA (hlast hl)))
              | openParen => simp at h
              | symbolT s => simp at h
              | numberT s => simp at h
              | pairSeparator => simp at h
              | quoteT => simp at h
              | quasiQuoteT => simp at h
              | unquoteT => simp at h
              | unquoteSplicingT => simp at h
        | openParen =>
          rw [parseListRest_stuck_other n first ts rest2 _ _ hstar (by simp) (by simp)] at h
          exact absurd h (by simp)
        | symbolT s =>
          rw [parseListRest_stuck_other n first ts rest2 _ _ hstar (by simp) (by simp)] at h
          exact absurd h (by simp)
        | numberT s =>
          rw [parseListRest_stuck_other n first ts rest2 _ _ hstar (by simp) (by simp)] at h
          exact absurd h (by simp)
        | quoteT =>
          rw [parseListRest_stuck_other n first ts rest2 _ _ hstar (by simp) (by simp)] at h
          exact absurd h (by simp)
        | quasiQuoteT =>
          rw [parseListRest_stuck_other n first ts rest2 _ _ hstar (by simp) (by simp)] at h
          exact absurd h (by simp)
        | unquoteT =>
          rw [parseListRest_stuck_other n first ts rest2 _ _ hstar (by simp) (by simp)] at h
          exact absurd h (by simp)
        | unquoteSplicingT =>
          rw [parseListRest_stuck_other n first ts rest2 _ _ hstar (by simp) (by simp)] at h
          exact absurd h (by simp)
    · intro ts hok
      cases hA : parseAtomT n ts with
      | none =>
        have hthis : parseAtomsStar (n + 1) ts = ([], ts) := by
          simp [parseAtomsStar, hA]
        rw [hthis]
        refine ⟨?_, hok⟩
        intro x hx
        simp at hx
      | some p =>
        obtain ⟨a, rest⟩ := p
        rw [parseAtomsStar_cons_of_parse n ts rest a hA]
        obtain ⟨ha, hokr⟩ := ihA ts a rest hA hok
        obtain ⟨hels, hokr2⟩ := ihS rest hokr
        refine ⟨?_, hokr2⟩
        intro x hx
        rcases List.mem_cons.mp hx with rfl | hx2
        · exact ha
        · exact hels x hx2

/-- End-to-end parser soundness: anything a successful `parseString` yields
is parseable, apart from atoms containing an infinite number. -/
theorem parseString_sound (str : String) (l : List Atom)
    (h : parseString str = Option.some l) :
    ∀ e ∈ l, noInf e = true → Parseable e := by
  cases hlex : lexString str with
  | none =>
    simp only [parseString] at h
    rw [hlex] at h
    exact absurd h (by simp)
  | some ts =>
    simp only [parseString] at h
    rw [hlex] at h
    simp only [Option.bind_eq_bind, Option.some_bind] at h
    have hok := lexString_sound str ts hlex
    simp only [parseTokens] at h
    by_cases hend : (parseAtomsStar (2 * ts.length + 2) ts).2 = []
    · rw [if_pos hend] at h
      obtain ⟨hels, -⟩ := (parserSound (2 * ts.length + 2)).2.2 ts hok
      have hl : l = (parseAtomsStar (2 * ts.length + 2) ts).1 := by
        simpa using h.symm
      intro e he hno
      exact hels e (by rw [← hl]; exact he) hno
    · rw [if_neg hend] at h
      exact absurd h (by simp)

/-! ## C9: claim theorems -/

/-- C9 counterexample: the literal `1e400` overflows `f64` and parses to the
infinite number value, whose debug rendering is `inf`; re-parsing that
rendering yields the symbol `inf`, which is not (structurally or otherwise)
equal to the original expression — so the round trip fails for a
parser-producible expression. -/
theorem c9_counterexample :
    parseString "1e400" = Option.some [Atom.number F64.inf] ∧
    Atom.printDebug (Atom.number F64.inf) = "inf" ∧
    parseString (Atom.printDebug (Atom.number F64.inf)) =
      Option.some [Atom.symbol "inf"] ∧
    atomEq (Atom.number F64.inf) (Atom.symbol "inf") = false :=
  ⟨rfl, rfl, rfl, rfl⟩

/-- C9 (amended): print/parse round trip. First conjunct (soundness):
everything a successful parse yields is a `Parseable` expression, unless it
contains an infinite number atom (the parser produces only power-of-ten
denominators below the `f64` overflow threshold, lexer-shaped symbols, and
pairs of such). Second conjunct (round trip): for every `Parseable`
expression `e`, parsing the debug rendering of `e` succeeds and returns a
sequence containing exactly one element, and that element is structurally
equal to `e` under the interpreter's own structural equality `atomEq`
(numbers compare by value — `"1.50"` re-reads as the same value with the
fraction in a different representation).  The unamended claim is refuted by
`c9_counterexample`: an infinite number survives parsing but not the round
trip. -/
theorem c9_roundtrip :
    (∀ str l, parseString str = Option.some l → ∀ e ∈ l, noInf e = true → Parseable e) ∧
    (∀ e, Parseable e →
      ∃ e', parseString (Atom.printDebug e) = Option.some [e'] ∧ atomEq e e' = true) :=
  ⟨parseString_sound, fun e h => parseString_printDebug e h⟩

/-- Witness for C9: a parse output is parseable, and a concrete parseable
expression round-trips. -/
theorem c9_witness :
    Parseable (Atom.number (F64.finite ⟨42, 1⟩)) ∧
    (∃ e', parseString (Atom.printDebug (Atom.symbol "abc")) = Option.some [e'] ∧
      atomEq (Atom.symbol "abc") e' = true) :=
  ⟨c9_roundtrip.1 "42" [Atom.number (F64.finite ⟨42, 1⟩)] rfl
      (Atom.number (F64.finite ⟨42, 1⟩)) (by simp) rfl,
    c9_roundtrip.2 (Atom.symbol "abc") (PShape.sym "abc" rfl)⟩
